import Mathlib

/-!
# Verification of the happy-synthesizer core

A shallow embedding, in Lean 4, of the polyphonic synthesizer's core:
the generation-tagged slot store with a doubly-linked insertion-order
list (`src/note.rs` over the `slotmap` crate), the linear and
exponential ADSR envelopes (`src/envelope/adsr.rs`), the oscillators
(`src/osc/*.rs`), and the orchestrator (`src/lib.rs`, an earlier
snapshot of the module family that still compiles envelope and
oscillator code inline).

Modelling conventions:
* `f32` values are modelled as exact rationals `ℚ` wherever the code
  only performs field arithmetic and comparisons, so that concrete runs
  are kernel-evaluable; where a transcendental function enters
  (`exp` in the exponential envelope) the value type is `ℝ` and the
  function is `Real.exp`.
* `f32::sin` is passed to the sine oscillator as an explicit function
  argument `sinF : ℚ → ℚ` (the f32 values form a subset of `ℚ`); every
  theorem about the oscillators holds for all interpretations of it.
* Rust panics (`Option::unwrap`, slotmap's panicking `Index`) are
  modelled with `Except Panic`; a function that cannot panic is total.
* Rust's `%` on floats (truncated remainder) is `fmod` below.
-/

namespace Happy

instance {ε α : Type _} [DecidableEq ε] [DecidableEq α] : DecidableEq (Except ε α) :=
  fun x y =>
    match x, y with
    | .ok a, .ok b =>
      if h : a = b then isTrue (by rw [h]) else isFalse (by simp [h])
    | .error a, .error b =>
      if h : a = b then isTrue (by rw [h]) else isFalse (by simp [h])
    | .ok _, .error _ => isFalse (fun h => nomatch h)
    | .error _, .ok _ => isFalse (fun h => nomatch h)

/-- Truncation toward zero of a rational, as `f32` casts/`trunc` do.
`Int` division `Int.div` truncates toward zero. -/
def ratTrunc (q : ℚ) : ℤ := q.num / (q.den : ℤ)

/-- Rust `a % b` on floats: the truncated-division remainder
`a - b * trunc (a / b)`. -/
def fmod (a b : ℚ) : ℚ := a - b * ((ratTrunc (a / b) : ℤ) : ℚ)

/-- The `f32` value of `std::f32::consts::PI` (exactly
`13176795 * 2 ^ (-22)`). -/
def pi32 : ℚ := 13176795 / 4194304

/-! ## `src/note.rs`: notes and the note container -/

/-- `note.rs::NoteState` (an identical enum is re-declared in `lib.rs`;
one Lean type serves both). -/
inductive NoteState where
  | Holding (t : ℚ)
  | Released (t : ℚ)
  deriving DecidableEq, Repr

/-- `note.rs::Note<State>`. -/
structure Note (St : Type) where
  freq : ℚ
  amp : ℚ
  time : ℚ
  held : Bool
  state : St
  deriving DecidableEq, Repr

/-- `note.rs::Note::held_state`. -/
def Note.held_state {St : Type} (n : Note St) (t_offset : ℚ) : NoteState :=
  if n.held then .Holding (n.time + t_offset) else .Released (n.time + t_offset)

/-- `note.rs::NoteId`, a generationed slotmap key: slot index plus the
version the slot had when the key was issued. -/
structure NoteId where
  idx : ℕ
  ver : ℕ
  deriving DecidableEq, Repr

/-- One storage slot of a `slotmap::SlotMap`.  In the crate a slot is
occupied exactly when its version is odd; here occupancy is carried by
`val` directly, versions evolve exactly as in the crate (`+1` on each
occupy and each vacate). -/
structure Slot (α : Type) where
  ver : ℕ
  val : Option α
  deriving DecidableEq, Repr

/-- `slotmap::SlotMap` with a custom key type.  `free` is the LIFO free
list the crate threads through vacant slots, `numElems` its live-element
counter, `cap` the storage reserved by `with_capacity_and_key` (a `Vec`
allocation; `capacity()` reports it, growing only if the slot vector
outgrows it). -/
structure SlotMap (α : Type) where
  slots : List (Slot α)
  free : List ℕ
  numElems : ℕ
  cap : ℕ
  deriving DecidableEq, Repr

namespace SlotMap

/-- `SlotMap::with_capacity_and_key`. -/
def withCapacity (α : Type) (cap : ℕ) : SlotMap α :=
  ⟨[], [], 0, cap⟩

/-- `SlotMap::len`. -/
def len {α : Type} (m : SlotMap α) : ℕ := m.numElems

/-- `SlotMap::capacity` (the reserved storage; never below the number of
slots actually in use). -/
def capacity {α : Type} (m : SlotMap α) : ℕ := max m.cap m.slots.length

/-- `SlotMap::get` / `get_mut` lookup: the key's slot must exist and
still carry the key's version. -/
def get {α : Type} (m : SlotMap α) (k : NoteId) : Option α :=
  match m.slots[k.idx]? with
  | some s => if s.ver = k.ver then s.val else none
  | none => none

/-- `SlotMap::insert`: reuse the head of the free list (bumping the
slot's version so stale keys can never match again), or push a fresh
slot with version 1. -/
def insert {α : Type} (m : SlotMap α) (v : α) : SlotMap α × NoteId :=
  match m.free with
  | i :: rest =>
    match m.slots[i]? with
    | some s =>
      (⟨m.slots.set i ⟨s.ver + 1, some v⟩, rest, m.numElems + 1, m.cap⟩, ⟨i, s.ver + 1⟩)
    | none =>
      (⟨m.slots ++ [⟨1, some v⟩], rest, m.numElems + 1, m.cap⟩, ⟨m.slots.length, 1⟩)
  | [] =>
    (⟨m.slots ++ [⟨1, some v⟩], [], m.numElems + 1, m.cap⟩, ⟨m.slots.length, 1⟩)

/-- `SlotMap::remove`: on a valid key, vacate the slot (version bump),
push its index on the free list and return the removed value; on an
invalid key do nothing and return `none`. -/
def remove {α : Type} (m : SlotMap α) (k : NoteId) : Option α × SlotMap α :=
  match m.slots[k.idx]? with
  | some s =>
    if s.ver = k.ver then
      match s.val with
      | some v =>
        (some v, ⟨m.slots.set k.idx ⟨s.ver + 1, none⟩, k.idx :: m.free, m.numElems - 1, m.cap⟩)
      | none => (none, m)
    else (none, m)
  | none => (none, m)

/-- The mutation behind `self.entries[key].field = …`: slotmap's `Index`
impl panics (`none` here) when the key is invalid, otherwise the value
is updated in place and the version is untouched. -/
def modify {α : Type} (m : SlotMap α) (k : NoteId) (f : α → α) : Option (SlotMap α) :=
  match m.slots[k.idx]? with
  | some s =>
    if s.ver = k.ver then
      match s.val with
      | some v => some ⟨m.slots.set k.idx ⟨s.ver, some (f v)⟩, m.free, m.numElems, m.cap⟩
      | none => none
    else none
  | none => none

end SlotMap

/-- The ways the embedded container code can panic: `Option::unwrap` on
`None`, slotmap's `Index` on an invalid key.  `fuel` marks exhaustion of
the explicit bound we give the (in Rust, unbounded) `filter` loop; under
the well-formedness invariant it is never reached. -/
inductive Panic where
  | unwrapNone
  | invalidKey
  | fuel
  deriving DecidableEq, Repr

/-- `note.rs::ListEntry<St>` (the stored value is kept generic, as the
container never inspects it). -/
structure ListEntry (α : Type) where
  it : α
  next : Option NoteId
  prev : Option NoteId
  deriving DecidableEq, Repr

/-- `note.rs::NoteList<St>`. -/
structure NoteList (α : Type) where
  head : Option NoteId
  tail : Option NoteId
  entries : SlotMap (ListEntry α)
  deriving DecidableEq, Repr

namespace NoteList

/-- `NoteList::new`. -/
def new (α : Type) (cap : ℕ) : NoteList α :=
  ⟨none, none, SlotMap.withCapacity _ cap⟩

/-- The insertion half of `NoteList::add` (everything after the
eviction `if`): `self.entries.insert(…)`, the old tail's `next` fix-up
through slotmap's panicking `Index`, and the `head`/`tail` updates. -/
def addInner {α : Type} (l : NoteList α) (note : α) :
    Except Panic (NoteList α × NoteId) :=
  -- (the Rust code calls `insert` once and binds `key`; the repeated
  -- `(l.entries.insert …)` below always denotes that single result)
  match l.tail with
  | some t =>
    -- `if let Some(tail) = self.tail { self.entries[tail].next = Some(key); }`
    match (l.entries.insert ⟨note, none, l.tail⟩).1.modify t
        (fun en => { en with next := some (l.entries.insert ⟨note, none, l.tail⟩).2 }) with
    | none => .error .invalidKey
    | some entries =>
      .ok ({ head := if l.head = none
               then some (l.entries.insert ⟨note, none, l.tail⟩).2 else l.head,
             tail := some (l.entries.insert ⟨note, none, l.tail⟩).2,
             entries := entries },
        (l.entries.insert ⟨note, none, l.tail⟩).2)
  | none =>
    .ok ({ head := if l.head = none
             then some (l.entries.insert ⟨note, none, l.tail⟩).2 else l.head,
           tail := some (l.entries.insert ⟨note, none, l.tail⟩).2,
           entries := (l.entries.insert ⟨note, none, l.tail⟩).1 },
      (l.entries.insert ⟨note, none, l.tail⟩).2)

/-- `NoteList::add`, line for line.  The eviction branch runs when
`len == capacity`; it unwraps `head`, removes that key from the slot
map, and then — still with the removed key — indexes the slot map twice
more to rewire `head`. -/
def add {α : Type} (l : NoteList α) (note : α) : Except Panic (NoteList α × NoteId) :=
  -- `if self.entries.len() == self.entries.capacity() { … }`
  if l.entries.len = l.entries.capacity then
    match l.head with
    | none => .error .unwrapNone          -- `self.head.unwrap()`
    | some key =>
      -- `self.head = self.entries[key].next;` : `key` was just removed
      match (l.entries.remove key).2.get key with
      | none => .error .invalidKey
      | some e =>
        -- `self.entries[self.head.unwrap()].prev = None;`
        match e.next with
        | none => .error .unwrapNone
        | some h =>
          match (l.entries.remove key).2.modify h (fun en => { en with prev := none }) with
          | none => .error .invalidKey
          | some entries =>
            addInner { l with head := some h, entries := entries } note
  else
    addInner l note

/-- `NoteList::get_mut` (read view; mutation through it is
`modifyNote`). -/
def getMut {α : Type} (l : NoteList α) (k : NoteId) : Option α :=
  (l.entries.get k).map (·.it)

/-- A caller-side mutation through `get_mut`, as in
`if let Some(note) = self.notes.get_mut(id) { … }`: a no-op when the
key is dead. -/
def modifyNote {α : Type} (l : NoteList α) (k : NoteId) (f : α → α) : NoteList α :=
  match l.entries.modify k (fun e => { e with it := f e.it }) with
  | some entries => { l with entries := entries }
  | none => l

/-- `NoteList::remove`: take the entry out of the slot map; if it was
live, splice its neighbours together (panicking pattern: the neighbour
updates go through slotmap's `Index`). -/
def remove {α : Type} (l : NoteList α) (k : NoteId) : Except Panic (NoteList α) :=
  match (l.entries.remove k).1 with
  | none => .ok { l with entries := (l.entries.remove k).2 }
  | some entry =>
    match (match entry.prev with
      | some p =>
        match (l.entries.remove k).2.modify p (fun en => { en with next := entry.next }) with
        | none => Except.error Panic.invalidKey
        | some entries => Except.ok (l.head, entries)
      | none => Except.ok (entry.next, (l.entries.remove k).2) :
        Except Panic (Option NoteId × SlotMap (ListEntry α))) with
    | .error e => .error e
    | .ok he =>
      match entry.next with
      | some nx =>
        match he.2.modify nx (fun en => { en with prev := entry.prev }) with
        | none => .error .invalidKey
        | some entries => .ok { head := he.1, tail := l.tail, entries := entries }
      | none => .ok { head := he.1, tail := entry.prev, entries := he.2 }

/-- The body of `NoteList::filter`'s `while` loop, with explicit fuel
(the Rust loop is bounded by the finite chain; `Panic.fuel` is
unreachable from well-formed states). Reads `entries[k].next` before
deciding, removes when the predicate rejects, then steps to `next`. -/
def filterGo {α : Type} (f : α → Bool) :
    ℕ → Option NoteId → NoteList α → Except Panic (NoteList α)
  | _, none, l => .ok l
  | 0, some _, _ => .error .fuel
  | fuel + 1, some k, l =>
    match l.entries.get k with
    | none => .error .invalidKey          -- `self.entries[k]`
    | some e =>
      match (if f e.it then .ok l else l.remove k : Except Panic (NoteList α)) with
      | .error err => .error err
      | .ok l => filterGo f fuel e.next l

/-- `NoteList::filter`. -/
def filter {α : Type} (l : NoteList α) (f : α → Bool) : Except Panic (NoteList α) :=
  filterGo f (l.entries.numElems + 1) l.head l

end NoteList

/-! ## `src/envelope/adsr.rs`: the ADSR envelopes

The structure `AdsrEnvelope { attack, decay, sustain, release }` is
declared identically in `envelope/adsr.rs` and in the `lib.rs`
snapshot; one Lean structure serves both, with the two files' `sample`
methods kept apart (`sample` from `envelope/adsr.rs`, `sampleLib` from
`lib.rs`). -/

structure AdsrEnvelope where
  attack : ℚ
  decay : ℚ
  sustain : ℚ
  release : ℚ
  deriving DecidableEq, Repr

namespace AdsrEnvelope

/-- `envelope/adsr.rs` `impl Envelope for AdsrEnvelope`, `fn sample`. -/
def sample (e : AdsrEnvelope) : NoteState → ℚ
  | .Holding time =>
    if time < 0 then 0
    else if time < e.attack then 1 - time / e.attack
    else if time < e.attack + e.decay then
      let decay_time := time - e.attack
      1 + (e.sustain - 1) * (decay_time / e.decay)
    else e.sustain
  | .Released time =>
    if time < e.release then 1 - time / e.release * e.sustain
    else 0

/-- `envelope/adsr.rs` `fn note_ended`. -/
def note_ended (e : AdsrEnvelope) : NoteState → Bool
  | .Holding _ => false
  | .Released time => e.release ≤ time

/-- Which divisions `sample` actually executes, branch for branch: the
proposition that every divisor on the taken path is nonzero (`f32`
division by zero would produce an infinity/NaN). -/
def sampleDivSafe (e : AdsrEnvelope) : NoteState → Prop
  | .Holding time =>
    if time < 0 then True
    else if time < e.attack then e.attack ≠ 0
    else if time < e.attack + e.decay then e.decay ≠ 0
    else True
  | .Released time =>
    if time < e.release then e.release ≠ 0 else True

/-- `lib.rs`'s own (superseded-snapshot) `AdsrEnvelope::sample`, the one
the embedded `Synth::render` calls. -/
def sampleLib (e : AdsrEnvelope) : NoteState → ℚ
  | .Holding time =>
    if time < e.attack then time / e.attack
    else if time < e.attack + e.decay then
      let decay_time := time - e.attack
      1 + (e.sustain - 1) * (decay_time / e.decay)
    else e.sustain
  | .Released time =>
    if time < e.release then 1 - time / e.release
    else 0

/-- `AdsrEnvelope::immediate` (both files). -/
def immediate : AdsrEnvelope := ⟨0, 0, 1, 0⟩

end AdsrEnvelope

/-! The exponential variant calls `f32::exp`, so here values live in `ℝ`
and the exponential is `Real.exp` (passed explicitly so the definitions
stay executable; every theorem instantiates it with `Real.exp`). -/

/-- `NoteState` over `ℝ`, for the exponential envelope. -/
inductive NoteStateR where
  | Holding (t : ℝ)
  | Released (t : ℝ)

/-- The `props : AdsrEnvelope` carried by `ExponentialAdsrEnvelope`,
with `ℝ`-valued fields. -/
structure AdsrEnvelopeR where
  attack : ℝ
  decay : ℝ
  sustain : ℝ
  release : ℝ

/-- `envelope/adsr.rs::sample_exp`: the inverse-exponential segment
`y = a·e^(−x) + c` through `(0, y_start)` and `(t_end, y_end)`, sampled
at `t` of the normalized domain.  (`noncomputable` is forced by exact
real arithmetic; the function itself mirrors the source line for
line.) -/
noncomputable def sample_exp (expF : ℝ → ℝ) (y_start y_end t_end t : ℝ) : ℝ :=
  let a := (y_start - y_end) / (1 - expF (-t_end))
  let c := y_start - a
  let t := t * t_end
  a * expF (-t) + c

/-- `envelope/adsr.rs::ExponentialAdsrEnvelope`. -/
structure ExponentialAdsrEnvelope where
  end_x : ℝ
  props : AdsrEnvelopeR

namespace ExponentialAdsrEnvelope

/-- `impl Envelope for ExponentialAdsrEnvelope`, `fn sample`. -/
noncomputable def sample (expF : ℝ → ℝ) (x : ExponentialAdsrEnvelope) : NoteStateR → ℝ
  | .Holding time =>
    if time < 0 then 0
    else if time < x.props.attack then
      sample_exp expF 0 1 x.end_x (time / x.props.attack)
    else if time < x.props.attack + x.props.decay then
      sample_exp expF 1 x.props.sustain x.end_x ((time - x.props.attack) / x.props.decay)
    else x.props.sustain
  | .Released time =>
    if time < x.props.release then
      sample_exp expF x.props.sustain 0 x.end_x (time / x.props.release)
    else 0

/-- All divisors on the path `sample` takes, branch for branch: the
phase duration divided by, and `sample_exp`'s fitting denominator
`1 − e^(−end_x)`. -/
def sampleDivSafe (expF : ℝ → ℝ) (x : ExponentialAdsrEnvelope) : NoteStateR → Prop
  | .Holding time =>
    if time < 0 then True
    else if time < x.props.attack then
      x.props.attack ≠ 0 ∧ 1 - expF (-x.end_x) ≠ 0
    else if time < x.props.attack + x.props.decay then
      x.props.decay ≠ 0 ∧ 1 - expF (-x.end_x) ≠ 0
    else True
  | .Released time =>
    if time < x.props.release then
      x.props.release ≠ 0 ∧ 1 - expF (-x.end_x) ≠ 0
    else True

end ExponentialAdsrEnvelope

/-! ## `src/osc/*.rs`: the oscillators

Every `fill_samples` walks the buffer once in order, adding
`amp * waveform(phase)` to each sample and advancing the per-note
state; `oscGo` is that loop, parameterized by the two lines of its body
(the sample produced from the current state, and the state update).
`f32::sin` enters as an explicit function `sinF`. -/

/-- The per-sample loop shared by all `fill_samples` implementations:
`*sample += out(state); state = step(state);`. -/
def oscGo {σ : Type} (out : σ → ℚ) (step : σ → σ) : σ → List ℚ → List ℚ × σ
  | s, [] => ([], s)
  | s, b :: bs =>
    let r := oscGo out step (step s) bs
    ((b + out s) :: r.1, r.2)

/-- Pointwise sum of two buffers (`zipWith` like the Rust iterators,
stopping at the shorter). -/
def zipAdd (a b : List ℚ) : List ℚ := List.zipWith (· + ·) a b

/-- `osc/sine.rs::SineOscillatorState`. -/
structure SineOscillatorState where
  phase : ℚ
  deriving DecidableEq, Repr

namespace SineOscillator

/-- `osc/sine.rs::SineOscillator::create_state`. -/
def create_state : SineOscillatorState := ⟨0⟩

/-- `osc/sine.rs::SineOscillator::fill_samples`. -/
def fill_samples (sinF : ℚ → ℚ) (state : SineOscillatorState) (buffer : List ℚ)
    (delta_t freq amp : ℚ) : List ℚ × SineOscillatorState :=
  let increment := 2 * pi32 * freq * delta_t
  let r := oscGo (fun phase => sinF phase * amp)
    (fun phase => fmod (phase + increment) (2 * pi32)) state.phase buffer
  (r.1, ⟨r.2⟩)

end SineOscillator

/-- `osc/saw.rs::SawOscillatorState`. -/
structure SawOscillatorState where
  phase : ℚ
  deriving DecidableEq, Repr

namespace SawOscillator

/-- `osc/saw.rs::SawOscillator::fill_samples`. -/
def fill_samples (state : SawOscillatorState) (buffer : List ℚ)
    (delta_t freq amp : ℚ) : List ℚ × SawOscillatorState :=
  let increment := delta_t * freq
  let r := oscGo (fun phase => (2 * phase - 1) * amp)
    (fun phase => fmod (phase + increment) 1) state.phase buffer
  (r.1, ⟨r.2⟩)

end SawOscillator

/-- `osc/square.rs::SquareOscillatorState`. -/
structure SquareOscillatorState where
  phase : ℚ
  deriving DecidableEq, Repr

namespace SquareOscillator

/-- `osc/square.rs::SquareOscillator::fill_samples`. -/
def fill_samples (state : SquareOscillatorState) (buffer : List ℚ)
    (delta_t freq amp : ℚ) : List ℚ × SquareOscillatorState :=
  let increment := freq * delta_t
  let r := oscGo (fun phase => if phase < 1/2 then amp else -amp)
    (fun phase => fmod (phase + increment) 1) state.phase buffer
  (r.1, ⟨r.2⟩)

end SquareOscillator

/-- `osc/noise.rs::NoiseOscillatorState`: the per-note `ThreadRng` is
modelled as an abstract stream of draws (each in `[-1, 1)`) together
with a cursor; `gen_range` consumes the next draw. -/
structure NoiseOscillatorState where
  draws : ℕ → ℚ
  pos : ℕ

namespace NoiseOscillator

/-- `osc/noise.rs::NoiseOscillator::fill_samples` (ignores `delta_t`
and `freq` as the source does). -/
def fill_samples (state : NoiseOscillatorState) (buffer : List ℚ)
    (_delta_t _freq : ℚ) (amp : ℚ) : List ℚ × NoiseOscillatorState :=
  let r := oscGo (fun pos => state.draws pos * amp) (· + 1) state.pos buffer
  (r.1, ⟨state.draws, r.2⟩)

end NoiseOscillator

/-- `osc/harmonic.rs::TableEntry` (its `osc : SineOscillator` field is
a zero-sized unit struct). -/
structure TableEntry where
  amplitude : ℚ
  deriving DecidableEq, Repr

/-- `osc/harmonic.rs::HarmonicOscillator`. -/
structure HarmonicOscillator where
  table : List TableEntry
  deriving DecidableEq, Repr

/-- `osc/harmonic.rs::HarmonicOscillatorState`. -/
structure HarmonicOscillatorState where
  states : List SineOscillatorState
  deriving DecidableEq, Repr

/-- The enumerated loop body of
`osc/harmonic.rs::HarmonicOscillator::fill_samples`: for table index
`ix` (zipped with the per-harmonic sine states), run the sine
`fill_samples` on the accumulating buffer at frequency
`freq * (ix+1)` and amplitude `entry.amplitude * amp / (ix+1)`. -/
def harmonicGo (sinF : ℚ → ℚ) (delta_t freq amp : ℚ) :
    ℕ → List TableEntry → List SineOscillatorState → List ℚ →
      List ℚ × List SineOscillatorState
  | ix, entry :: tbl, st :: sts, acc =>
    let multiplier : ℚ := ((ix + 1 : ℕ) : ℚ)
    let entry_freq := freq * multiplier
    let entry_amp := entry.amplitude * amp / multiplier
    let r := SineOscillator.fill_samples sinF st acc delta_t entry_freq entry_amp
    let rest := harmonicGo sinF delta_t freq amp (ix + 1) tbl sts r.1
    (rest.1, r.2 :: rest.2)
  | _, _, sts, acc => (acc, sts)

namespace HarmonicOscillator

/-- `osc/harmonic.rs::HarmonicOscillator::new`. -/
def new (amps : List ℚ) : HarmonicOscillator := ⟨amps.map (⟨·⟩)⟩

/-- `osc/harmonic.rs::HarmonicOscillator::create_state`. -/
def create_state (h : HarmonicOscillator) : HarmonicOscillatorState :=
  ⟨h.table.map (fun _ => SineOscillator.create_state)⟩

/-- `osc/harmonic.rs::HarmonicOscillator::fill_samples`:
`buffer.fill(0.0)` first, then the enumerated harmonic loop. -/
def fill_samples (sinF : ℚ → ℚ) (h : HarmonicOscillator)
    (state : HarmonicOscillatorState) (buffer : List ℚ)
    (delta_t freq amp : ℚ) : List ℚ × HarmonicOscillatorState :=
  let r := harmonicGo sinF delta_t freq amp 0 h.table state.states
    (List.replicate buffer.length 0)
  (r.1, ⟨r.2⟩)

end HarmonicOscillator

/-- The spec's own description of the harmonic-stack fill (§4.2),
written from the spec's words for the refinement comparison with the
source's `HarmonicOscillator.fill_samples`: starting from a zeroed
buffer, the result is the pointwise sum over the 1-based harmonic
indices `k` of an independent sine contribution at frequency `freq·k`
and amplitude `entry_amp·amp/k`, each computed on a zero buffer with
that harmonic's own phase state. -/
def harmonicStackSpec (sinF : ℚ → ℚ) (delta_t freq amp : ℚ) :
    ℕ → List TableEntry → List SineOscillatorState → ℕ →
      List ℚ × List SineOscillatorState
  | ix, entry :: tbl, st :: sts, n =>
    let k : ℚ := ((ix + 1 : ℕ) : ℚ)
    let one := SineOscillator.fill_samples sinF st (List.replicate n 0) delta_t
      (freq * k) (entry.amplitude * amp / k)
    let rest := harmonicStackSpec sinF delta_t freq amp (ix + 1) tbl sts n
    (zipAdd one.1 rest.1, one.2 :: rest.2)
  | _, _, sts, n => (List.replicate n 0, sts)

/-! ## `src/lib.rs`: the `Synth` orchestrator

`lib.rs` is the repository's earlier snapshot of the module family: its
`Note` has no oscillator-state field, the one oscillator instance (a
`Box<dyn Oscillator>`) is owned by the `Synth` and shared by all notes,
and its own `AdsrEnvelope::sample` (embedded above as `sampleLib`) is
the envelope `render` consults.  The boxed oscillator is modelled by a
state type `St` together with the `fill_samples` function stored in the
`Synth` (the vtable). -/

namespace Lib

/-- `lib.rs::Config`. -/
structure Config where
  sample_rate : ℚ
  buffer_size : ℕ
  leftover_sample_count : ℕ
  deriving DecidableEq, Repr

/-- `lib.rs::note::Note` as this snapshot uses it (no oscillator-state
field). -/
structure Note where
  freq : ℚ
  amp : ℚ
  time : ℚ
  held : Bool
  deriving DecidableEq, Repr

/-- `lib.rs::SquareOscillator` (this snapshot keeps the phase in the
oscillator itself; `fill_samples` takes `&mut self`). -/
structure SquareOscillator where
  phase : ℚ
  deriving DecidableEq, Repr

/-- `lib.rs::SquareOscillator::fill_samples`. -/
def SquareOscillator.fill_samples (self : SquareOscillator) (buffer : List ℚ)
    (delta_t freq amp : ℚ) : List ℚ × SquareOscillator :=
  let increment := freq * delta_t
  let r := oscGo (fun phase => if phase < 1/2 then amp else -amp)
    (fun phase => fmod (phase + increment) 1) self.phase buffer
  (r.1, ⟨r.2⟩)

/-- `lib.rs::Synth`, generic over the boxed oscillator's state type,
with the oscillator's `fill_samples` stored alongside (the `dyn`
vtable). -/
structure Synth (St : Type) where
  cfg : Config
  fillFn : St → List ℚ → ℚ → ℚ → ℚ → List ℚ × St
  osc : St
  adsr : AdsrEnvelope
  notes : NoteList Note

/-- `Synth::new`. -/
def Synth.new {St : Type} (cfg : Config)
    (fillFn : St → List ℚ → ℚ → ℚ → ℚ → List ℚ × St) (osc : St)
    (adsr : AdsrEnvelope) (max_notes : ℕ) : Synth St :=
  ⟨cfg, fillFn, osc, adsr, NoteList.new _ max_notes⟩

/-- `Synth::start_note`. -/
def Synth.start_note {St : Type} (s : Synth St) (freq amp : ℚ) :
    Except Panic (Synth St × NoteId) :=
  (s.notes.add ⟨freq, amp, 0, true⟩).map
    (fun p => ({ s with notes := p.1 }, p.2))

/-- `Synth::end_note`. -/
def Synth.end_note {St : Type} (s : Synth St) (id : NoteId) : Synth St :=
  let notes := s.notes.modifyNote id (fun n => { n with held := false, time := 0 })
  { s with notes := notes }

/-- The inner per-sample loop of `Synth::render`:
`buffer.iter_mut().zip(temp_buf.iter()).enumerate()`, scaling each
scratch sample by the envelope at `note.time + i·delta_t` under the
note's held/released tag and accumulating into the output. -/
def mixNote (adsr : AdsrEnvelope) (n : Note) (dt : ℚ) :
    ℕ → List ℚ → List ℚ → List ℚ
  | i, o :: os, t :: ts =>
    let curr_time := (i : ℚ) * dt
    let amp := adsr.sampleLib
      (if n.held then .Holding (n.time + curr_time) else .Released (n.time + curr_time))
    (o + t * amp) :: mixNote adsr n dt (i + 1) os ts
  | _, os, _ => os

/-- The `for note in self.notes.notes_mut()` loop of `Synth::render`,
walking the slot store in storage order.  Note that `temp_buf` is
threaded through unchanged between notes — the source never clears it,
so each note's oscillator output lands on top of all previous notes'.
Returns (oscillator, temp_buf, output, slots). -/
def renderSlots {St : Type} (fillFn : St → List ℚ → ℚ → ℚ → ℚ → List ℚ × St)
    (adsr : AdsrEnvelope) (dt total : ℚ) :
    St → List ℚ → List ℚ → List (Slot (ListEntry Note)) →
      St × List ℚ × List ℚ × List (Slot (ListEntry Note))
  | osc, temp, out, [] => (osc, temp, out, [])
  | osc, temp, out, sl :: rest =>
    match sl.val with
    | none =>
      let r := renderSlots fillFn adsr dt total osc temp out rest
      (r.1, r.2.1, r.2.2.1, sl :: r.2.2.2)
    | some e =>
      let n := e.it
      let fr := fillFn osc temp dt n.freq n.amp
      let out1 := mixNote adsr n dt 0 out fr.1
      let n1 := { n with time := n.time + total }
      let r := renderSlots fillFn adsr dt total fr.2 fr.1 out1 rest
      (r.1, r.2.1, r.2.2.1, ⟨sl.ver, some { e with it := n1 }⟩ :: r.2.2.2)

/-- `Synth::render`. -/
def Synth.render {St : Type} (s : Synth St) (buffer : List ℚ) :
    List ℚ × Synth St :=
  let delta_t := 1 / s.cfg.sample_rate
  let total_time := (buffer.length : ℚ) * delta_t
  let temp_buf := List.replicate buffer.length (0 : ℚ)
  let r := renderSlots s.fillFn s.adsr delta_t total_time s.osc temp_buf buffer
    s.notes.entries.slots
  (r.2.2.1,
    { s with
      osc := r.1
      notes := { s.notes with entries := { s.notes.entries with slots := r.2.2.2 } } })

/-- `Synth::bookkeeping`:
`self.notes.filter(|n| n.held || n.time < self.adsr.release)`. -/
def Synth.bookkeeping {St : Type} (s : Synth St) : Except Panic (Synth St) :=
  (s.notes.filter (fun n => n.held || decide (n.time < s.adsr.release))).map
    (fun nl => { s with notes := nl })

end Lib

/-! ## Observation functions and invariants for the note container

These support the identity-stability (C5) and bookkeeping (C6) claims:
per-slot observations, the version-monotonicity order on slot maps, the
free-list invariant, and the executable well-formedness check tying the
doubly-linked chain to the occupied slots. -/

/-- The abstract container operations a caller can perform on a
`NoteList` after obtaining an identity: `add` (as `Synth::start_note`
does), `remove`, a mutation through `get_mut` (as `Synth::end_note` or
`notes_mut` iteration do), and a `filter` sweep (as
`Synth::bookkeeping` does). -/
inductive Op (α : Type) where
  | add (note : α)
  | remove (k : NoteId)
  | modify (k : NoteId) (f : α → α)
  | filter (f : α → Bool)

/-- One container operation as a state transition (panics propagate). -/
def NoteList.step {α : Type} (op : Op α) (l : NoteList α) :
    Except Panic (NoteList α) :=
  match op with
  | .add n =>
    match l.add n with
    | .error e => .error e
    | .ok p => .ok p.1
  | .remove k => l.remove k
  | .modify k f => .ok (l.modifyNote k f)
  | .filter f => l.filter f

/-- A whole sequence of container operations. -/
def NoteList.runOps {α : Type} : List (Op α) → NoteList α → Except Panic (NoteList α)
  | [], l => .ok l
  | op :: ops, l =>
    match NoteList.step op l with
    | .error e => .error e
    | .ok l => NoteList.runOps ops l

/-- The version of slot `j` (0 when out of range). -/
def SlotMap.slotVer {α : Type} (m : SlotMap α) (j : ℕ) : ℕ :=
  ((m.slots[j]?).map (·.ver)).getD 0

/-- `k` is stale in `m`: its slot exists but has moved past `k`'s
version.  A stale key can never match again, because versions only
grow. -/
def SlotMap.staleP {α : Type} (m : SlotMap α) (k : NoteId) : Prop :=
  k.idx < m.slots.length ∧ k.ver < m.slotVer k.idx

/-- Version monotonicity: `m'` has at least the slots of `m`, each at a
version at least as large. Every container operation is monotone. -/
def SlotMap.Mono {α : Type} (m m' : SlotMap α) : Prop :=
  m.slots.length ≤ m'.slots.length ∧
    ∀ j, j < m.slots.length → m.slotVer j ≤ m'.slotVer j

/-- The slotmap free-list invariant, executably: every free index
points at an existing vacant slot, and no index is listed twice. -/
def SlotMap.invB {α : Type} (m : SlotMap α) : Bool :=
  m.free.all (fun i =>
    match m.slots[i]? with
    | some s => s.val.isNone
    | none => false) && decide m.free.Nodup

/-- The note stored at slot `j` (`none` when vacant or out of range). -/
def itVal {α : Type} (m : SlotMap (ListEntry α)) (j : ℕ) : Option α :=
  match m.slots[j]? with
  | some s => s.val.map (·.it)
  | none => none

/-- Slot `j`'s identity-relevant view: its version and stored note,
ignoring the chain's `next`/`prev` rewiring. -/
def slotView {α : Type} (m : SlotMap (ListEntry α)) (j : ℕ) : Option (ℕ × Option α) :=
  (m.slots[j]?).map (fun s => (s.ver, s.val.map (·.it)))

/-- The doubly-linked chain check: starting at cursor `cur` whose
predecessor is `p?`, the keys `ks` are exactly the chain the `next`
pointers trace, with each entry's `prev` pointing back correctly. -/
def ChainB {α : Type} (m : SlotMap (ListEntry α)) :
    Option NoteId → Option NoteId → List NoteId → Bool
  | _, cur, [] => cur.isNone
  | p?, cur, k :: rest =>
    decide (cur = some k) &&
      (match m.get k with
       | some e => decide (e.prev = p?) && ChainB m (some k) e.next rest
       | none => false)

/-- The predecessor cursor, when present, is a live key. -/
def POccB {α : Type} (m : SlotMap (ListEntry α)) : Option NoteId → Bool
  | none => true
  | some p => (m.get p).isSome

/-- The predecessor's slot index is not among the suffix still to be
visited. -/
def PSepB : Option NoteId → List NoteId → Bool
  | none, _ => true
  | some p, ks => decide (p.idx ∉ ks.map (·.idx))

/-- The visited keys occupy pairwise-distinct slots. -/
def IdxNodupB (ks : List NoteId) : Bool :=
  decide (ks.map (·.idx)).Nodup

/-- Every occupied slot is claimed by exactly the keys of `ks`. -/
def CoversB {α : Type} (m : SlotMap (ListEntry α)) (ks : List NoteId) : Bool :=
  (List.range m.slots.length).all (fun j =>
    (match m.slots[j]? with
     | some s => s.val.isSome
     | none => false) == ks.any (fun k => decide (k.idx = j)))

/-- Full well-formedness of a `NoteList` relative to its insertion-order
key list `ks`: the chain from `head` is `ks`, it covers every occupied
slot, and the slots are pairwise distinct. Every list reachable by the
container operations satisfies this for some `ks`. -/
def NLWFB {α : Type} (l : NoteList α) (ks : List NoteId) : Bool :=
  ChainB l.entries none l.head ks && CoversB l.entries ks && IdxNodupB ks &&
    decide (l.entries.numElems = ks.length)

/-! ## C5 and C6: identity stability and the bookkeeping sweep -/

/-- A concrete two-note container (values `10` and `20`, capacity 3)
for exercising the identity-stability theorem. -/
def C5list : NoteList ℕ :=
  ⟨some ⟨0, 1⟩, some ⟨1, 1⟩,
    ⟨[⟨1, some ⟨10, some ⟨1, 1⟩, none⟩⟩, ⟨1, some ⟨20, none, some ⟨0, 1⟩⟩⟩],
      [], 2, 3⟩⟩

/-- `C5list` after `add 30` (computed by the embedded code). -/
def C5listA : NoteList ℕ :=
  ⟨some ⟨0, 1⟩, some ⟨2, 1⟩,
    ⟨[⟨1, some ⟨10, some ⟨1, 1⟩, none⟩⟩,
      ⟨1, some ⟨20, some ⟨2, 1⟩, some ⟨0, 1⟩⟩⟩,
      ⟨1, some ⟨30, none, some ⟨1, 1⟩⟩⟩], [], 3, 3⟩⟩

/-- `C5list` after `remove ⟨0,1⟩`: slot 0 vacated at version 2. -/
def C5rem : NoteList ℕ :=
  ⟨some ⟨1, 1⟩, some ⟨1, 1⟩,
    ⟨[⟨2, none⟩, ⟨1, some ⟨20, none, none⟩⟩], [0], 1, 3⟩⟩

/-- `C5rem` after `add 40`: slot 0 is reused at version 3, so the old
key `⟨0,1⟩` must still read back `none`, not the new note. -/
def C5run : NoteList ℕ :=
  ⟨some ⟨1, 1⟩, some ⟨0, 3⟩,
    ⟨[⟨3, some ⟨40, none, some ⟨1, 1⟩⟩⟩, ⟨1, some ⟨20, some ⟨0, 3⟩, none⟩⟩],
      [], 2, 3⟩⟩

/-- `C5list` after `filter (· < 15)`: note `20` swept, note `10`
kept. -/
def C5filt : NoteList ℕ :=
  ⟨some ⟨0, 1⟩, some ⟨0, 1⟩,
    ⟨[⟨1, some ⟨10, none, none⟩⟩, ⟨2, none⟩], [1], 1, 3⟩⟩

/-- The insertion-order key list of `C5list`. -/
def C5ks : List NoteId := [⟨0, 1⟩, ⟨1, 1⟩]

/-- A released note whose time `5` has passed the release `2`:
`note_ended` holds, so `bookkeeping` must sweep it. -/
def C6noteA : Lib.Note := ⟨440, 1, 5, false⟩

/-- A held note: `note_ended` is false, so `bookkeeping` keeps it. -/
def C6noteB : Lib.Note := ⟨220, 1, 0, true⟩

/-- A concrete synth holding `C6noteA` and `C6noteB` (release 2). -/
def C6synth : Lib.Synth Unit :=
  ⟨⟨48000, 64, 0⟩, fun st buf _ _ _ => (buf, st), (), ⟨0, 0, 1, 2⟩,
    ⟨some ⟨0, 1⟩, some ⟨1, 1⟩,
      ⟨[⟨1, some ⟨C6noteA, some ⟨1, 1⟩, none⟩⟩,
        ⟨1, some ⟨C6noteB, none, some ⟨0, 1⟩⟩⟩], [], 2, 2⟩⟩⟩

/-- The insertion-order key list of `C6synth`'s container. -/
def C6ks : List NoteId := [⟨0, 1⟩, ⟨1, 1⟩]


/-! ## Theorems -/

/-! ### C1 / C9: the eviction path and zero-capacity construction

Concrete runs of the embedded `NoteList`. -/

/-- C1: "whenever add is called on a container already holding
`max_notes` notes, it first evicts the single chronologically-oldest
live note, then inserts the new note as the newest".  Evaluating the
code: with capacity 1, the first `add` succeeds (key = slot 0,
version 1), and the second `add` — the one that should evict — panics:
after `self.entries.remove(key)` the code reads
`self.entries[key].next` with the very key it has just invalidated,
which is slotmap's `Index` panic.  Eviction can never complete, so the
claimed behaviour never happens. -/
theorem C1_add_eviction_panics :
    (Except.map (fun p => p.2) ((NoteList.new ℕ 1).add 10) = .ok ⟨0, 1⟩) ∧
      ((do
        let (l1, _) ← (NoteList.new ℕ 1).add 10
        l1.add 20 : Except Panic (NoteList ℕ × NoteId)) = .error .invalidKey) := by
  decide

/-- C9 counterexample: "constructing a note container with capacity 0
fails fast at construction time; it never succeeds silently and then
misbehaves in a later add" is false of the code: `NoteList::new(0)` has
no assert and returns an ordinary empty container, and it is the first
`add` that panics (`self.head.unwrap()` on `None`, reached because
`len == capacity == 0` immediately selects the eviction branch). -/
theorem C9_counterexample :
    (NoteList.new ℕ 0 =
      ⟨none, none, ⟨[], [], 0, 0⟩⟩) ∧
      ((NoteList.new ℕ 0).add 5 = .error .unwrapNone) := by
  decide

/-- C9 amended: construction with capacity 0 performs no validation and
succeeds, returning an empty container; the invalid configuration
surfaces only on the first `add`, which panics in the eviction branch
(`head.unwrap()` on an empty list) for every note value. -/
theorem C9_amended {α : Type} (x : α) :
    NoteList.new α 0 = ⟨none, none, ⟨[], [], 0, 0⟩⟩ ∧
      (NoteList.new α 0).add x = .error .unwrapNone := by
  constructor
  · rfl
  · rfl

/-! ### C2 / C3: the linear attack and release ramps -/

/-- C2: the claim says `sample(Holding(t)) = t/attack` on `[0, attack)`
— a 0→1 ramp with `sample(Holding(0)) = 0.0` and, for
`attack = 0.01 s`, `sample(Holding(0.009)) = 0.9`.  Evaluating the code
(`1.0 - time / self.attack`) at those very inputs: the ramp starts at
`1` and descends, giving `0.1` where the claim (and the envelope's own
doc-diagram, which draws the attack rising to the peak) requires `0.9`. -/
theorem C2_attack_ramp_evaluates_inverted :
    (AdsrEnvelope.sample ⟨1/100, 1/100, 1/2, 1/10⟩ (.Holding 0) = 1) ∧
      (AdsrEnvelope.sample ⟨1/100, 1/100, 1/2, 1/10⟩ (.Holding (9/1000)) = 1/10) ∧
      AdsrEnvelope.sample ⟨1/100, 1/100, 1/2, 1/10⟩ (.Holding (9/1000)) ≠ 9/10 := by
  refine ⟨?_, ?_, ?_⟩ <;> norm_num [AdsrEnvelope.sample]

/-- C3: the claim says `sample(Released(t))` is the straight line from
`1.0` at `t = 0` to `0` at `t = release`, i.e. `1 − t/release`; with
`sustain = 0.5`, `release = 0.1` that line gives `0.5` at `t = 0.05`.
The code computes `1.0 - time / self.release * self.sustain`
(parsed `1 − (t/release)·sustain`), which gives `0.75` there, tends to
`1 − sustain = 0.5` as `t → release` and then jumps to `0` — it never
ramps to 0 unless `sustain = 1`. -/
theorem C3_release_ramp_evaluates_off_line :
    (AdsrEnvelope.sample ⟨1/100, 1/100, 1/2, 1/10⟩ (.Released (1/20)) = 3/4) ∧
      AdsrEnvelope.sample ⟨1/100, 1/100, 1/2, 1/10⟩ (.Released (1/20)) ≠ 1/2 := by
  refine ⟨?_, ?_⟩ <;> norm_num [AdsrEnvelope.sample]

/-! ### C8: zero-length phases and division by zero -/

/-- C8 counterexample: the claim quantifies over *every* configuration
with a zero-length phase and says `sample` performs no division by
zero, for the exponential variant too.  The configuration
`end_x = 0, attack = 0, decay = 1, sustain = 1, release = 1` has a
zero-length attack, yet sampling `Released(0)` takes the release ramp
and divides by `sample_exp`'s fitting denominator
`1 − e^(−end_x) = 1 − e^0 = 0`. -/
theorem C8_counterexample :
    ¬ ExponentialAdsrEnvelope.sampleDivSafe Real.exp ⟨0, ⟨0, 1, 1, 1⟩⟩
        (.Released 0) := by
  simp only [ExponentialAdsrEnvelope.sampleDivSafe]
  rw [if_pos (by norm_num : (0:ℝ) < (⟨0, ⟨0, 1, 1, 1⟩⟩ :
    ExponentialAdsrEnvelope).props.release)]
  simp [Real.exp_zero]

/-- C8 amended: with zero-length phases the `sample` implementations
never divide by the phase durations (each duration is divided by only
inside a branch guarded by `t < duration`, unreachable for `t ≥ 0` when
that duration is `0`), and a zero-length phase skips straight to the
next phase's target value; for the exponential variant this additionally
requires `end_x ≠ 0`, since `sample_exp` divides by `1 − e^(−end_x)` on
every ramp regardless of the phase durations. -/
theorem C8_amended :
    (∀ (e : AdsrEnvelope) (t : ℚ),
        (e.attack = 0 ∨ e.decay = 0 ∨ e.release = 0) → 0 ≤ t →
        (e.sampleDivSafe (.Holding t) ∧ e.sampleDivSafe (.Released t)) ∧
          (e.attack = 0 → 0 < e.decay → e.sample (.Holding 0) = 1) ∧
          (e.attack = 0 → e.decay = 0 → e.sample (.Holding 0) = e.sustain) ∧
          (e.release = 0 → e.sample (.Released t) = 0)) ∧
      (∀ (x : ExponentialAdsrEnvelope) (t : ℝ),
        (x.props.attack = 0 ∨ x.props.decay = 0 ∨ x.props.release = 0) → 0 ≤ t →
        x.end_x ≠ 0 →
        (x.sampleDivSafe Real.exp (.Holding t) ∧
            x.sampleDivSafe Real.exp (.Released t)) ∧
          (x.props.attack = 0 → 0 < x.props.decay →
            x.sample Real.exp (.Holding 0) = 1) ∧
          (x.props.attack = 0 → x.props.decay = 0 →
            x.sample Real.exp (.Holding 0) = x.props.sustain) ∧
          (x.props.release = 0 → x.sample Real.exp (.Released t) = 0)) := by
  constructor
  · intro e t _ ht
    refine ⟨⟨?_, ?_⟩, ?_, ?_, ?_⟩
    · simp only [AdsrEnvelope.sampleDivSafe]
      rw [if_neg (not_lt.mpr ht)]
      by_cases h2 : t < e.attack
      · rw [if_pos h2]
        intro h; rw [h] at h2; exact absurd ht (not_le.mpr h2)
      · rw [if_neg h2]
        by_cases h3 : t < e.attack + e.decay
        · rw [if_pos h3]
          intro h; rw [h, add_zero] at h3; exact h2 h3
        · rw [if_neg h3]; trivial
    · simp only [AdsrEnvelope.sampleDivSafe]
      by_cases h1 : t < e.release
      · rw [if_pos h1]
        intro h; rw [h] at h1; exact absurd ht (not_le.mpr h1)
      · rw [if_neg h1]; trivial
    · intro ha hd
      simp only [AdsrEnvelope.sample]
      rw [if_neg (lt_irrefl (0:ℚ)), if_neg (by rw [ha]; exact lt_irrefl (0:ℚ)),
        if_pos (by rw [ha, zero_add]; exact hd)]
      rw [ha]
      ring
    · intro ha hd
      simp only [AdsrEnvelope.sample]
      rw [if_neg (lt_irrefl (0:ℚ)), if_neg (by rw [ha]; exact lt_irrefl (0:ℚ)),
        if_neg (by rw [ha, hd, add_zero]; exact lt_irrefl (0:ℚ))]
    · intro hr
      simp only [AdsrEnvelope.sample]
      rw [if_neg (by rw [hr]; exact not_lt.mpr ht)]
  · intro x t _ ht hx
    have hden : 1 - Real.exp (-x.end_x) ≠ 0 := by
      intro h
      have h1 : Real.exp (-x.end_x) = Real.exp 0 := by
        rw [Real.exp_zero]; linarith
      exact hx (by simpa [neg_eq_zero] using Real.exp_injective h1)
    refine ⟨⟨?_, ?_⟩, ?_, ?_, ?_⟩
    · simp only [ExponentialAdsrEnvelope.sampleDivSafe]
      rw [if_neg (not_lt.mpr ht)]
      by_cases h2 : t < x.props.attack
      · rw [if_pos h2]
        exact ⟨fun h => absurd ht (not_le.mpr (h ▸ h2)), hden⟩
      · rw [if_neg h2]
        by_cases h3 : t < x.props.attack + x.props.decay
        · rw [if_pos h3]
          refine ⟨fun h => ?_, hden⟩
          rw [h, add_zero] at h3; exact h2 h3
        · rw [if_neg h3]; trivial
    · simp only [ExponentialAdsrEnvelope.sampleDivSafe]
      by_cases h1 : t < x.props.release
      · rw [if_pos h1]
        exact ⟨fun h => absurd ht (not_le.mpr (h ▸ h1)), hden⟩
      · rw [if_neg h1]; trivial
    · intro ha hd
      simp only [ExponentialAdsrEnvelope.sample]
      rw [if_neg (lt_irrefl (0:ℝ)), if_neg (by rw [ha]; exact lt_irrefl (0:ℝ)),
        if_pos (by rw [ha, zero_add]; exact hd)]
      simp only [sample_exp, ha]
      rw [show ((0:ℝ) - 0) / x.props.decay * x.end_x = 0 by ring, neg_zero,
        Real.exp_zero]
      ring
    · intro ha hd
      simp only [ExponentialAdsrEnvelope.sample]
      rw [if_neg (lt_irrefl (0:ℝ)), if_neg (by rw [ha]; exact lt_irrefl (0:ℝ)),
        if_neg (by rw [ha, hd, add_zero]; exact lt_irrefl (0:ℝ))]
    · intro hr
      simp only [ExponentialAdsrEnvelope.sample]
      rw [if_neg (by rw [hr]; exact not_lt.mpr ht)]

/-- Witness for `C8_amended`: both halves applied at a concrete
configuration with a zero-length attack. -/
theorem C8_amended_witness :
    ((AdsrEnvelope.sampleDivSafe ⟨0, 1/2, 1/3, 1⟩ (.Holding 0) ∧
        AdsrEnvelope.sampleDivSafe ⟨0, 1/2, 1/3, 1⟩ (.Released 0)) ∧
      ((0:ℚ) = 0 → (0:ℚ) < 1/2 →
        AdsrEnvelope.sample ⟨0, 1/2, 1/3, 1⟩ (.Holding 0) = 1) ∧
      ((0:ℚ) = 0 → (1/2:ℚ) = 0 →
        AdsrEnvelope.sample ⟨0, 1/2, 1/3, 1⟩ (.Holding 0) = 1/3) ∧
      ((1:ℚ) = 0 → AdsrEnvelope.sample ⟨0, 1/2, 1/3, 1⟩ (.Released 0) = 0)) ∧
      ((ExponentialAdsrEnvelope.sampleDivSafe Real.exp ⟨1, ⟨0, 1/2, 1/3, 1⟩⟩ (.Holding 0) ∧
        ExponentialAdsrEnvelope.sampleDivSafe Real.exp ⟨1, ⟨0, 1/2, 1/3, 1⟩⟩ (.Released 0)) ∧
      ((0:ℝ) = 0 → (0:ℝ) < 1/2 →
        ExponentialAdsrEnvelope.sample Real.exp ⟨1, ⟨0, 1/2, 1/3, 1⟩⟩ (.Holding 0) = 1) ∧
      ((0:ℝ) = 0 → (1/2:ℝ) = 0 →
        ExponentialAdsrEnvelope.sample Real.exp ⟨1, ⟨0, 1/2, 1/3, 1⟩⟩ (.Holding 0) = 1/3) ∧
      ((1:ℝ) = 0 →
        ExponentialAdsrEnvelope.sample Real.exp ⟨1, ⟨0, 1/2, 1/3, 1⟩⟩ (.Released 0) = 0)) :=
  ⟨C8_amended.1 ⟨0, 1/2, 1/3, 1⟩ 0 (Or.inl rfl) le_rfl,
    C8_amended.2 ⟨1, ⟨0, 1/2, 1/3, 1⟩⟩ 0 (Or.inl rfl) le_rfl one_ne_zero⟩

/-! ### Additivity lemmas for the oscillator loop -/

theorem oscGo_fst_length {σ : Type} (out : σ → ℚ) (step : σ → σ) :
    ∀ (buf : List ℚ) (s : σ), (oscGo out step s buf).1.length = buf.length := by
  intro buf
  induction buf with
  | nil => intro s; rfl
  | cons b bs ih => intro s; simp [oscGo, ih]

/-- The loop only adds: its result is the old buffer content plus a
contribution (and a final state) that depend on the starting state and
the buffer's length, never on its content. -/
theorem oscGo_eq {σ : Type} (out : σ → ℚ) (step : σ → σ) :
    ∀ (buf : List ℚ) (s : σ),
      oscGo out step s buf =
        (zipAdd buf (oscGo out step s (List.replicate buf.length 0)).1,
          (oscGo out step s (List.replicate buf.length 0)).2) := by
  intro buf
  induction buf with
  | nil => intro s; rfl
  | cons b bs ih =>
    intro s
    simp only [oscGo, List.length_cons, List.replicate_succ, zipAdd,
      List.zipWith_cons_cons]
    rw [ih (step s)]
    simp [zipAdd]

theorem zipAdd_assoc : ∀ (a b c : List ℚ),
    zipAdd (zipAdd a b) c = zipAdd a (zipAdd b c) := by
  intro a
  induction a with
  | nil => intro b c; rfl
  | cons x xs ih =>
    intro b c
    cases b with
    | nil => rfl
    | cons y ys =>
      cases c with
      | nil => rfl
      | cons z zs =>
        simp only [zipAdd, List.zipWith_cons_cons, add_assoc]
        exact congrArg _ (ih ys zs)

theorem zipAdd_length : ∀ (a b : List ℚ),
    (zipAdd a b).length = min a.length b.length := by
  intro a b; simp [zipAdd]

theorem zipAdd_replicate_zero : ∀ (a : List ℚ),
    zipAdd a (List.replicate a.length 0) = a := by
  intro a
  induction a with
  | nil => rfl
  | cons x xs ih => simp [zipAdd, List.replicate_succ] at ih ⊢; exact ih

theorem zipAdd_replicate_zero_left : ∀ (b : List ℚ),
    zipAdd (List.replicate b.length 0) b = b := by
  intro b
  induction b with
  | nil => rfl
  | cons x xs ih => simp [zipAdd, List.replicate_succ] at ih ⊢; exact ih

/-- The generic double-call consequence of `oscGo_eq`: running the loop
twice in sequence over a pre-populated buffer yields the original
content plus the two individual (content-independent) contributions. -/
theorem oscGo_twice {σ : Type} (out : σ → ℚ) (step : σ → σ) (buf : List ℚ) (s : σ) :
    (oscGo out step (oscGo out step s buf).2 (oscGo out step s buf).1).1 =
      zipAdd (zipAdd buf (oscGo out step s (List.replicate buf.length 0)).1)
        (oscGo out step (oscGo out step s buf).2
          (List.replicate buf.length 0)).1 := by
  conv_lhs => rw [oscGo_eq out step (oscGo out step s buf).1]
  rw [oscGo_fst_length]
  rw [oscGo_eq out step buf s]

/-- Sine `fill_samples` at the `fill_samples` level: result = old
content + contribution computed from a zero buffer of the same
length. -/
theorem sine_fill_samples_eq (sinF : ℚ → ℚ) (st : SineOscillatorState)
    (buf : List ℚ) (dt f a : ℚ) :
    SineOscillator.fill_samples sinF st buf dt f a =
      (zipAdd buf
          (SineOscillator.fill_samples sinF st (List.replicate buf.length 0) dt f a).1,
        (SineOscillator.fill_samples sinF st (List.replicate buf.length 0) dt f a).2) := by
  simp only [SineOscillator.fill_samples, List.length_replicate]
  rw [oscGo_eq]

theorem sine_fill_samples_length (sinF : ℚ → ℚ) (st : SineOscillatorState)
    (buf : List ℚ) (dt f a : ℚ) :
    (SineOscillator.fill_samples sinF st buf dt f a).1.length = buf.length := by
  simp only [SineOscillator.fill_samples]
  exact oscGo_fst_length _ _ _ _

theorem harmonicStackSpec_fst_length (sinF : ℚ → ℚ) (dt f a : ℚ) :
    ∀ (tbl : List TableEntry) (sts : List SineOscillatorState) (ix n : ℕ),
      (harmonicStackSpec sinF dt f a ix tbl sts n).1.length = n := by
  intro tbl
  induction tbl with
  | nil => intro sts ix n; simp [harmonicStackSpec]
  | cons entry tbl ih =>
    intro sts ix n
    cases sts with
    | nil => simp [harmonicStackSpec]
    | cons st sts =>
      simp only [harmonicStackSpec]
      rw [zipAdd_length, sine_fill_samples_length, List.length_replicate,
        ih sts (ix + 1) n, min_self]

/-- The harmonic loop, related to the spec-side stack of independent
sine contributions. -/
theorem harmonicGo_stack (sinF : ℚ → ℚ) (dt f a : ℚ) :
    ∀ (tbl : List TableEntry) (sts : List SineOscillatorState) (ix : ℕ)
      (acc : List ℚ),
      harmonicGo sinF dt f a ix tbl sts acc =
        (zipAdd acc (harmonicStackSpec sinF dt f a ix tbl sts acc.length).1,
          (harmonicStackSpec sinF dt f a ix tbl sts acc.length).2) := by
  intro tbl
  induction tbl with
  | nil =>
    intro sts ix acc
    simp [harmonicGo, harmonicStackSpec, zipAdd_replicate_zero]
  | cons entry tbl ih =>
    intro sts ix acc
    cases sts with
    | nil => simp [harmonicGo, harmonicStackSpec, zipAdd_replicate_zero]
    | cons st sts =>
      simp only [harmonicGo, harmonicStackSpec]
      rw [sine_fill_samples_eq]
      rw [ih sts (ix + 1)]
      rw [zipAdd_length, sine_fill_samples_length, List.length_replicate,
        min_self, zipAdd_assoc]

/-- C7: for the sine, saw, square and noise oscillators, `fill_samples`
only adds to the existing buffer content — the result is the old buffer
plus a contribution (and final state) that depend only on the starting
state and the buffer length; consequently calling it twice in sequence
on a pre-populated buffer yields, sample for sample, the original
content plus the two individual contributions.  The harmonic-stack
variant is the exception: its result is independent of the buffer's
prior content (it zeroes first), and equals the spec-side stack of
independent sine contributions at frequency `freq·k` and amplitude
`entry_amp·amp/k` for the 1-based harmonic indices `k`. -/
theorem C7_fill_samples_additive :
    (∀ (sinF : ℚ → ℚ) (st : SineOscillatorState) (buf : List ℚ) (dt f a : ℚ),
        SineOscillator.fill_samples sinF st buf dt f a =
          (zipAdd buf
              (SineOscillator.fill_samples sinF st (List.replicate buf.length 0) dt f a).1,
            (SineOscillator.fill_samples sinF st
              (List.replicate buf.length 0) dt f a).2)) ∧
      (∀ (sinF : ℚ → ℚ) (st : SineOscillatorState) (buf : List ℚ) (dt f a : ℚ),
        (SineOscillator.fill_samples sinF
            (SineOscillator.fill_samples sinF st buf dt f a).2
            (SineOscillator.fill_samples sinF st buf dt f a).1 dt f a).1 =
          zipAdd (zipAdd buf
              (SineOscillator.fill_samples sinF st (List.replicate buf.length 0) dt f a).1)
            (SineOscillator.fill_samples sinF
              (SineOscillator.fill_samples sinF st buf dt f a).2
              (List.replicate buf.length 0) dt f a).1) ∧
      (∀ (st : SawOscillatorState) (buf : List ℚ) (dt f a : ℚ),
        SawOscillator.fill_samples st buf dt f a =
          (zipAdd buf
              (SawOscillator.fill_samples st (List.replicate buf.length 0) dt f a).1,
            (SawOscillator.fill_samples st (List.replicate buf.length 0) dt f a).2)) ∧
      (∀ (st : SquareOscillatorState) (buf : List ℚ) (dt f a : ℚ),
        SquareOscillator.fill_samples st buf dt f a =
          (zipAdd buf
              (SquareOscillator.fill_samples st (List.replicate buf.length 0) dt f a).1,
            (SquareOscillator.fill_samples st (List.replicate buf.length 0) dt f a).2)) ∧
      (∀ (st : NoiseOscillatorState) (buf : List ℚ) (dt f a : ℚ),
        NoiseOscillator.fill_samples st buf dt f a =
          (zipAdd buf
              (NoiseOscillator.fill_samples st (List.replicate buf.length 0) dt f a).1,
            (NoiseOscillator.fill_samples st (List.replicate buf.length 0) dt f a).2)) ∧
      (∀ (sinF : ℚ → ℚ) (h : HarmonicOscillator) (st : HarmonicOscillatorState)
          (buf : List ℚ) (dt f a : ℚ),
        HarmonicOscillator.fill_samples sinF h st buf dt f a =
          HarmonicOscillator.fill_samples sinF h st
            (List.replicate buf.length 0) dt f a) ∧
      (∀ (sinF : ℚ → ℚ) (h : HarmonicOscillator) (st : HarmonicOscillatorState)
          (buf : List ℚ) (dt f a : ℚ),
        HarmonicOscillator.fill_samples sinF h st buf dt f a =
          ((harmonicStackSpec sinF dt f a 0 h.table st.states buf.length).1,
            ⟨(harmonicStackSpec sinF dt f a 0 h.table st.states buf.length).2⟩)) := by
  refine ⟨?_, ?_, ?_, ?_, ?_, ?_, ?_⟩
  · intro sinF st buf dt f a
    exact sine_fill_samples_eq sinF st buf dt f a
  · intro sinF st buf dt f a
    simp only [SineOscillator.fill_samples]
    exact oscGo_twice _ _ buf st.phase
  · intro st buf dt f a
    simp only [SawOscillator.fill_samples, List.length_replicate]
    rw [oscGo_eq]
  · intro st buf dt f a
    simp only [SquareOscillator.fill_samples, List.length_replicate]
    rw [oscGo_eq]
  · intro st buf dt f a
    simp only [NoiseOscillator.fill_samples, List.length_replicate]
    rw [oscGo_eq]
  · intro sinF h st buf dt f a
    simp only [HarmonicOscillator.fill_samples, List.length_replicate]
  · intro sinF h st buf dt f a
    simp only [HarmonicOscillator.fill_samples]
    rw [harmonicGo_stack, List.length_replicate]
    rw [show List.replicate buf.length (0:ℚ) =
        List.replicate
          (harmonicStackSpec sinF dt f a 0 h.table st.states buf.length).1.length 0 by
      rw [harmonicStackSpec_fst_length]]
    rw [zipAdd_replicate_zero_left]

/-! ### Slot-level lemmas: versions only grow, stale keys stay dead -/

theorem getElem?_some_lt {β : Type} {l : List β} {i : ℕ} {x : β}
    (h : l[i]? = some x) : i < l.length := by
  by_contra hlt
  rw [List.getElem?_eq_none (Nat.le_of_not_lt hlt)] at h
  exact Option.noConfusion h

/-- Characterization of `SlotMap.get`. -/
theorem SlotMap.get_eq_some {α : Type} {m : SlotMap α} {k : NoteId} {v : α} :
    m.get k = some v ↔
      ∃ s, m.slots[k.idx]? = some s ∧ s.ver = k.ver ∧ s.val = some v := by
  unfold SlotMap.get
  cases h : m.slots[k.idx]? with
  | none => simp [h]
  | some s =>
    simp only [h, Option.some.injEq]
    by_cases hv : s.ver = k.ver
    · simp [hv]
    · simp only [hv, if_false, ite_false]
      constructor
      · intro hc; exact Option.noConfusion hc
      · rintro ⟨s', hs', hv', -⟩
        cases hs'
        exact absurd hv' hv

theorem SlotMap.mono_refl {α : Type} (m : SlotMap α) : m.Mono m :=
  ⟨le_refl _, fun _ _ => le_refl _⟩

theorem SlotMap.mono_trans {α : Type} {m₁ m₂ m₃ : SlotMap α}
    (h12 : m₁.Mono m₂) (h23 : m₂.Mono m₃) : m₁.Mono m₃ :=
  ⟨le_trans h12.1 h23.1,
    fun j hj => le_trans (h12.2 j hj) (h23.2 j (lt_of_lt_of_le hj h12.1))⟩

theorem SlotMap.slotVer_set {α : Type} (m : SlotMap α) (i : ℕ) (s : Slot α)
    (free' : List ℕ) (n c : ℕ) (j : ℕ) :
    (SlotMap.mk (m.slots.set i s) free' n c).slotVer j =
      if i = j ∧ i < m.slots.length then s.ver else m.slotVer j := by
  unfold SlotMap.slotVer
  by_cases hij : i = j
  · subst hij
    by_cases hlt : i < m.slots.length
    · simp only [hlt, and_true, if_pos rfl]
      rw [List.getElem?_set_self', List.getElem?_eq_getElem hlt]
      simp
    · simp only [hlt, and_false, if_false]
      rw [List.getElem?_eq_none (by simpa using Nat.le_of_not_lt hlt),
        List.getElem?_eq_none (Nat.le_of_not_lt hlt)]
  · simp only [hij, false_and, if_false]
    rw [List.getElem?_set_ne hij]

theorem SlotMap.insert_mono {α : Type} (m : SlotMap α) (v : α) :
    m.Mono (m.insert v).1 := by
  unfold SlotMap.insert
  cases hf : m.free with
  | nil =>
    refine ⟨by simp, fun j hj => ?_⟩
    unfold SlotMap.slotVer
    simp only
    rw [List.getElem?_append, if_pos hj]
  | cons i rest =>
    cases hi : m.slots[i]? with
    | none =>
      simp only [hi]
      refine ⟨by simp, fun j hj => ?_⟩
      unfold SlotMap.slotVer
      simp only
      rw [List.getElem?_append, if_pos hj]
    | some s =>
      simp only [hi]
      refine ⟨by simp, fun j hj => ?_⟩
      rw [SlotMap.slotVer_set]
      by_cases hij : i = j ∧ i < m.slots.length
      · rw [if_pos hij]
        show m.slotVer j ≤ s.ver + 1
        have hsv : m.slotVer j = s.ver := by
          unfold SlotMap.slotVer; rw [← hij.1, hi]; rfl
        omega
      · rw [if_neg hij]

theorem SlotMap.remove_mono {α : Type} (m : SlotMap α) (k : NoteId) :
    m.Mono (m.remove k).2 := by
  unfold SlotMap.remove
  cases hi : m.slots[k.idx]? with
  | none => simp only [hi]; exact SlotMap.mono_refl m
  | some s =>
    simp only [hi]
    by_cases hv : s.ver = k.ver
    · rw [if_pos hv]
      cases hval : s.val with
      | none => simp only [hval]; exact SlotMap.mono_refl m
      | some v =>
        simp only [hval]
        refine ⟨by simp, fun j hj => ?_⟩
        rw [SlotMap.slotVer_set]
        by_cases hij : k.idx = j ∧ k.idx < m.slots.length
        · rw [if_pos hij]
          show m.slotVer j ≤ s.ver + 1
          have hsv : m.slotVer j = s.ver := by
            unfold SlotMap.slotVer; rw [← hij.1, hi]; rfl
          omega
        · rw [if_neg hij]
    · rw [if_neg hv]
      exact SlotMap.mono_refl m

theorem SlotMap.modify_mono {α : Type} {m m' : SlotMap α} {k : NoteId}
    {f : α → α} (h : m.modify k f = some m') : m.Mono m' := by
  unfold SlotMap.modify at h
  cases hi : m.slots[k.idx]? with
  | none => rw [hi] at h; exact Option.noConfusion h
  | some s =>
    simp only [hi] at h
    by_cases hv : s.ver = k.ver
    · rw [if_pos hv] at h
      cases hval : s.val with
      | none => rw [hval] at h; exact Option.noConfusion h
      | some v =>
        rw [hval] at h
        cases h
        refine ⟨by simp, fun j hj => ?_⟩
        rw [SlotMap.slotVer_set]
        by_cases hij : k.idx = j ∧ k.idx < m.slots.length
        · rw [if_pos hij]
          show m.slotVer j ≤ s.ver
          have hsv : m.slotVer j = s.ver := by
            unfold SlotMap.slotVer; rw [← hij.1, hi]; rfl
          omega
        · rw [if_neg hij]
    · rw [if_neg hv] at h; exact Option.noConfusion h

theorem SlotMap.staleP_mono {α : Type} {m m' : SlotMap α} {k : NoteId}
    (hs : m.staleP k) (hm : m.Mono m') : m'.staleP k :=
  ⟨lt_of_lt_of_le hs.1 hm.1, lt_of_lt_of_le hs.2 (hm.2 k.idx hs.1)⟩

theorem SlotMap.get_of_staleP {α : Type} {m : SlotMap α} {k : NoteId}
    (hs : m.staleP k) : m.get k = none := by
  have h2 := hs.2
  unfold SlotMap.get
  cases hi : m.slots[k.idx]? with
  | none => rfl
  | some s =>
    have hsv : m.slotVer k.idx = s.ver := by
      unfold SlotMap.slotVer; rw [hi]; rfl
    rw [hsv] at h2
    show (if s.ver = k.ver then s.val else none) = none
    rw [if_neg (by omega : ¬ s.ver = k.ver)]

/-- After a successful removal the key is stale. -/
theorem SlotMap.remove_staleP {α : Type} {m : SlotMap α} {k : NoteId} {v : α}
    (h : m.get k = some v) : ((m.remove k).2).staleP k := by
  obtain ⟨s, hi, hv, hval⟩ := SlotMap.get_eq_some.mp h
  have hlt : k.idx < m.slots.length := getElem?_some_lt hi
  unfold SlotMap.remove
  simp only [hi]
  rw [if_pos hv]
  simp only [hval]
  refine ⟨by simpa using hlt, ?_⟩
  rw [SlotMap.slotVer_set, if_pos ⟨rfl, hlt⟩]
  show k.ver < s.ver + 1
  omega

/-! ### Characterizations of the slot-map operations -/

theorem SlotMap.remove_noop {α : Type} {m : SlotMap α} {k : NoteId}
    (hg : m.get k = none) : m.remove k = (none, m) := by
  unfold SlotMap.get at hg
  unfold SlotMap.remove
  cases hi : m.slots[k.idx]? with
  | none => simp only [hi]
  | some s =>
    simp only [hi] at hg ⊢
    by_cases hv : s.ver = k.ver
    · rw [if_pos hv] at hg ⊢
      cases hval : s.val with
      | none => simp only [hval]
      | some v => rw [hval] at hg; exact Option.noConfusion hg
    · rw [if_neg hv]

theorem SlotMap.remove_spec {α : Type} {m : SlotMap α} {k : NoteId} {v : α}
    (hg : m.get k = some v) :
    ∃ s, m.slots[k.idx]? = some s ∧ s.ver = k.ver ∧ s.val = some v ∧
      m.remove k =
        (some v, ⟨m.slots.set k.idx ⟨s.ver + 1, none⟩, k.idx :: m.free,
          m.numElems - 1, m.cap⟩) := by
  obtain ⟨s, hi, hv, hval⟩ := SlotMap.get_eq_some.mp hg
  refine ⟨s, hi, hv, hval, ?_⟩
  unfold SlotMap.remove
  simp only [hi]
  rw [if_pos hv]
  simp only [hval]

theorem SlotMap.modify_spec {α : Type} {m m' : SlotMap α} {j : NoteId}
    {f : α → α} (h : m.modify j f = some m') :
    ∃ s v, m.slots[j.idx]? = some s ∧ s.ver = j.ver ∧ s.val = some v ∧
      m' = ⟨m.slots.set j.idx ⟨s.ver, some (f v)⟩, m.free, m.numElems, m.cap⟩ := by
  unfold SlotMap.modify at h
  cases hi : m.slots[j.idx]? with
  | none => rw [hi] at h; exact Option.noConfusion h
  | some s =>
    simp only [hi] at h
    by_cases hv : s.ver = j.ver
    · rw [if_pos hv] at h
      cases hval : s.val with
      | none => rw [hval] at h; exact Option.noConfusion h
      | some v =>
        rw [hval] at h
        exact ⟨s, v, rfl, hv, hval, (Option.some_inj.mp h).symm⟩
    · rw [if_neg hv] at h; exact Option.noConfusion h

theorem SlotMap.modify_some_of_get {α : Type} {m : SlotMap α} {j : NoteId}
    {v : α} (hg : m.get j = some v) (f : α → α) :
    m.modify j f = some ⟨m.slots.set j.idx
      ⟨j.ver, some (f v)⟩, m.free, m.numElems, m.cap⟩ := by
  obtain ⟨s, hi, hv, hval⟩ := SlotMap.get_eq_some.mp hg
  unfold SlotMap.modify
  simp only [hi]
  rw [if_pos hv]
  simp only [hval]
  rw [hv]

theorem SlotMap.remove_get_self {α : Type} (m : SlotMap α) (k : NoteId) :
    ((m.remove k).2).get k = none := by
  cases hg : m.get k with
  | none => rw [SlotMap.remove_noop hg]; exact hg
  | some v => exact SlotMap.get_of_staleP (SlotMap.remove_staleP hg)

/-- Two live keys occupying the same slot are the same key. -/
theorem SlotMap.get_same_idx {α : Type} {m : SlotMap α} {j k : NoteId}
    {v w : α} (hj : m.get j = some v) (hk : m.get k = some w)
    (hidx : j.idx = k.idx) : j = k := by
  obtain ⟨s, hi, hvj, -⟩ := SlotMap.get_eq_some.mp hj
  obtain ⟨s', hi', hvk, -⟩ := SlotMap.get_eq_some.mp hk
  rw [hidx, hi'] at hi
  cases hi
  obtain ⟨ji, jv⟩ := j
  obtain ⟨ki, kv⟩ := k
  simp only at hidx hvj hvk ⊢
  simp only [NoteId.mk.injEq]
  omega

/-- Removing one key leaves every other live key untouched. -/
theorem SlotMap.remove_get_preserve {α : Type} {m : SlotMap α} {j k : NoteId}
    {v : α} (hjk : j ≠ k) (hg : m.get k = some v) :
    ((m.remove j).2).get k = some v := by
  cases hgj : m.get j with
  | none => rw [SlotMap.remove_noop hgj]; exact hg
  | some w =>
    have hidx : j.idx ≠ k.idx := fun hidx =>
      hjk (SlotMap.get_same_idx hgj hg hidx)
    obtain ⟨s, hi, hv, hval, hrem⟩ := SlotMap.remove_spec hgj
    rw [hrem]
    obtain ⟨sk, hik, hvk, hvalk⟩ := SlotMap.get_eq_some.mp hg
    exact SlotMap.get_eq_some.mpr ⟨sk, by rw [List.getElem?_set_ne hidx]; exact hik,
      hvk, hvalk⟩

theorem SlotMap.get_eq_none_of_ver {α : Type} {m : SlotMap α} {k : NoteId}
    {s : Slot α} (hi : m.slots[k.idx]? = some s) (hne : ¬ s.ver = k.ver) :
    m.get k = none := by
  unfold SlotMap.get
  simp only [hi]
  rw [if_neg hne]

/-- An in-place update through a live key, observed through `get`. -/
theorem SlotMap.modify_get {α : Type} {m m' : SlotMap α} {j : NoteId}
    {f : α → α} (h : m.modify j f = some m') (k : NoteId) :
    m'.get k = if k = j then (m.get j).map f else m.get k := by
  obtain ⟨s, v, hi, hv, hval, hm'⟩ := SlotMap.modify_spec h
  have hgj : m.get j = some v := SlotMap.get_eq_some.mpr ⟨s, hi, hv, hval⟩
  have hlt : j.idx < m.slots.length := getElem?_some_lt hi
  by_cases hkj : k = j
  · subst hkj
    rw [if_pos rfl, hgj, hm']
    refine SlotMap.get_eq_some.mpr ⟨⟨s.ver, some (f v)⟩, ?_, hv, rfl⟩
    rw [List.getElem?_set_self', List.getElem?_eq_getElem hlt]
    rfl
  · rw [if_neg hkj]
    by_cases hidx : j.idx = k.idx
    · have hkver : ¬ (⟨s.ver, some (f v)⟩ : Slot α).ver = k.ver := by
        intro he
        apply hkj
        cases j; cases k
        simp only at hidx hv he ⊢
        simp only [NoteId.mk.injEq]
        exact ⟨hidx.symm, by omega⟩
      have hi' : (m.slots.set j.idx ⟨s.ver, some (f v)⟩)[k.idx]? =
          some ⟨s.ver, some (f v)⟩ := by
        rw [← hidx, List.getElem?_set_self', List.getElem?_eq_getElem hlt]
        rfl
      have h1 : m'.get k = none := by
        rw [hm']
        exact SlotMap.get_eq_none_of_ver hi' hkver
      have h2 : m.get k = none := by
        refine SlotMap.get_eq_none_of_ver (s := s) ?_ (by simpa using hkver)
        rw [← hidx]; exact hi
      rw [h1, h2]
    · rw [hm']
      show (match (m.slots.set j.idx ⟨s.ver, some (f v)⟩)[k.idx]? with
        | some sl => if sl.ver = k.ver then sl.val else none
        | none => none) =
        (match m.slots[k.idx]? with
        | some sl => if sl.ver = k.ver then sl.val else none
        | none => none)
      rw [List.getElem?_set_ne hidx]

/-- Under the free-list invariant, inserting never disturbs a live key,
and the issued key is new. -/
theorem SlotMap.insert_get_preserve {α : Type} {m : SlotMap α} {k : NoteId}
    {v : α} (hinv : m.invB = true) (hg : m.get k = some v) (w : α) :
    ((m.insert w).1).get k = some v ∧ (m.insert w).2 ≠ k := by
  obtain ⟨s, hi, hver, hval⟩ := SlotMap.get_eq_some.mp hg
  have hklt : k.idx < m.slots.length := getElem?_some_lt hi
  unfold SlotMap.insert
  cases hf : m.free with
  | nil =>
    constructor
    · exact SlotMap.get_eq_some.mpr ⟨s, by rw [List.getElem?_append, if_pos hklt]; exact hi,
        hver, hval⟩
    · intro he
      rw [← he] at hi
      simp only at hi
      exact absurd (getElem?_some_lt hi) (lt_irrefl _)
  | cons i rest =>
    have hmem : i ∈ m.free := by rw [hf]; exact List.mem_cons_self _ _
    have hinv' := hinv
    unfold SlotMap.invB at hinv'
    rw [Bool.and_eq_true] at hinv'
    have hip := List.all_eq_true.mp hinv'.1 i hmem
    cases hi2 : m.slots[i]? with
    | none => rw [hi2] at hip; exact Bool.noConfusion hip
    | some s2 =>
      rw [hi2] at hip
      have hs2 : s2.val = none := by
        simpa [Option.isNone_iff_eq_none] using hip
      have hik : i ≠ k.idx := by
        intro he
        rw [he, hi] at hi2
        cases hi2
        rw [hs2] at hval
        exact Option.noConfusion hval
      simp only [hi2]
      constructor
      · exact SlotMap.get_eq_some.mpr ⟨s, by rw [List.getElem?_set_ne hik]; exact hi,
          hver, hval⟩
      · intro he
        rw [← he] at hi
        simp only at hi
        rw [hi2] at hi
        cases hi
        rw [hs2] at hval
        exact Option.noConfusion hval

/-! ### `NoteList`-level consequences -/

/-- The eviction branch of `add` can never complete: after
`entries.remove(key)` the code indexes `entries[key]` with the removed
key (or unwraps a `None` head). -/
theorem NoteList.add_full_panics {α : Type} (l : NoteList α) (n : α)
    (hfull : l.entries.len = l.entries.capacity) :
    ∃ e, l.add n = Except.error e := by
  unfold NoteList.add
  rw [if_pos hfull]
  cases hh : l.head with
  | none => exact ⟨.unwrapNone, rfl⟩
  | some key =>
    refine ⟨.invalidKey, ?_⟩
    show (match (l.entries.remove key).2.get key with
      | none => (Except.error Panic.invalidKey : Except Panic (NoteList α × NoteId))
      | some e =>
        match e.next with
        | none => Except.error Panic.unwrapNone
        | some h =>
          match (l.entries.remove key).2.modify h
              (fun en => { en with prev := none }) with
          | none => Except.error Panic.invalidKey
          | some entries =>
            NoteList.addInner { l with head := some h, entries := entries } n) =
      Except.error Panic.invalidKey
    rw [SlotMap.remove_get_self l.entries key]

/-- Unfolding of `addInner` when the old tail's fix-up succeeds (or
there is no tail). -/
theorem NoteList.addInner_spec {α : Type} {l l' : NoteList α} {n : α}
    {k' : NoteId} (h : l.addInner n = .ok (l', k')) :
    k' = (l.entries.insert ⟨n, none, l.tail⟩).2 ∧
      ((l.tail = none ∧ l'.entries = (l.entries.insert ⟨n, none, l.tail⟩).1) ∨
        (∃ t, l.tail = some t ∧
          (l.entries.insert ⟨n, none, l.tail⟩).1.modify t
              (fun en => { en with next := some k' }) = some l'.entries)) := by
  unfold NoteList.addInner at h
  cases ht : l.tail with
  | none =>
    rw [ht] at h
    have h' := Except.ok.inj h
    injection h' with hl hk
    refine ⟨hk.symm, Or.inl ⟨rfl, ?_⟩⟩
    rw [← hl]
  | some t =>
    rw [ht] at h
    split at h
    · rename_i t1 hteq
      injection hteq with hteq'
      subst hteq'
      split at h
      · exact Except.noConfusion h
      · rename_i entries2 hmod
        have h' := Except.ok.inj h
        injection h' with hl hk
        refine ⟨hk.symm, Or.inr ⟨_, rfl, ?_⟩⟩
        rw [← hk, ← hl]
        exact hmod
    · rename_i hteq
      exact Option.noConfusion hteq

/-- A successful `add` took the non-full path. -/
theorem NoteList.add_ok_spec {α : Type} {l l' : NoteList α} {n : α}
    {k' : NoteId} (h : l.add n = .ok (l', k')) :
    l.entries.len ≠ l.entries.capacity ∧ l.addInner n = .ok (l', k') := by
  by_cases hfull : l.entries.len = l.entries.capacity
  · obtain ⟨e, he⟩ := NoteList.add_full_panics l n hfull
    rw [he] at h
    exact Except.noConfusion h
  · unfold NoteList.add at h
    rw [if_neg hfull] at h
    exact ⟨hfull, h⟩

theorem NoteList.addInner_mono {α : Type} {l l' : NoteList α} {n : α}
    {k' : NoteId} (h : l.addInner n = .ok (l', k')) :
    l.entries.Mono l'.entries := by
  obtain ⟨-, hrest⟩ := NoteList.addInner_spec h
  rcases hrest with ⟨-, hent⟩ | ⟨t, -, hmod⟩
  · rw [hent]; exact SlotMap.insert_mono _ _
  · exact SlotMap.mono_trans (SlotMap.insert_mono _ _) (SlotMap.modify_mono hmod)

theorem NoteList.add_mono {α : Type} {l l' : NoteList α} {n : α}
    {k' : NoteId} (h : l.add n = .ok (l', k')) :
    l.entries.Mono l'.entries :=
  NoteList.addInner_mono (NoteList.add_ok_spec h).2

theorem NoteList.list_remove_mono {α : Type} {l l' : NoteList α} {k : NoteId}
    (h : l.remove k = .ok l') : l.entries.Mono l'.entries := by
  unfold NoteList.remove at h
  split at h
  · have hl := Except.ok.inj h
    rw [← hl]
    exact SlotMap.remove_mono l.entries k
  · rename_i entry hent
    have hbase : l.entries.Mono (l.entries.remove k).2 := SlotMap.remove_mono l.entries k
    split at h
    · exact Except.noConfusion h
    · rename_i he hpm
      have hmid : l.entries.Mono he.2 := by
        split at hpm
        · rename_i p hp
          split at hpm
          · exact Except.noConfusion hpm
          · rename_i es hmodp
            have h2 := Except.ok.inj hpm
            rw [← h2]
            exact SlotMap.mono_trans hbase (SlotMap.modify_mono hmodp)
        · have h2 := Except.ok.inj hpm
          rw [← h2]
          exact hbase
      split at h
      · split at h
        · exact Except.noConfusion h
        · rename_i es2 hmodn
          have h2 := Except.ok.inj h
          rw [← h2]
          exact SlotMap.mono_trans hmid (SlotMap.modify_mono hmodn)
      · have h2 := Except.ok.inj h
        rw [← h2]
        exact hmid

theorem NoteList.modifyNote_mono {α : Type} (l : NoteList α) (k : NoteId)
    (f : α → α) : l.entries.Mono (l.modifyNote k f).entries := by
  unfold NoteList.modifyNote
  cases hm : l.entries.modify k (fun e => { e with it := f e.it }) with
  | none => exact SlotMap.mono_refl _
  | some entries => exact SlotMap.modify_mono hm

theorem NoteList.filterGo_mono {α : Type} (f : α → Bool) :
    ∀ (fuel : ℕ) (cur : Option NoteId) (l l' : NoteList α),
      NoteList.filterGo f fuel cur l = .ok l' → l.entries.Mono l'.entries := by
  intro fuel
  induction fuel with
  | zero =>
    intro cur l l' h
    cases cur with
    | none =>
      have hl := Except.ok.inj h
      rw [← hl]
      exact SlotMap.mono_refl _
    | some k => exact Except.noConfusion h
  | succ fuel ih =>
    intro cur l l' h
    cases cur with
    | none =>
      have hl := Except.ok.inj h
      rw [← hl]
      exact SlotMap.mono_refl _
    | some k =>
      unfold NoteList.filterGo at h
      split at h
      · exact Except.noConfusion h
      · rename_i e hget
        split at h
        · exact Except.noConfusion h
        · rename_i l1 hstep
          have hm1 : l.entries.Mono l1.entries := by
            by_cases hf : f e.it
            · rw [if_pos hf] at hstep
              have hok := Except.ok.inj hstep
              rw [hok]
              exact SlotMap.mono_refl _
            · rw [if_neg hf] at hstep
              exact NoteList.list_remove_mono hstep
          exact SlotMap.mono_trans hm1 (ih e.next l1 l' h)

theorem NoteList.filter_mono {α : Type} {l l' : NoteList α} {f : α → Bool}
    (h : l.filter f = .ok l') : l.entries.Mono l'.entries :=
  NoteList.filterGo_mono f _ l.head l l' h

theorem NoteList.step_mono {α : Type} {op : Op α} {l l' : NoteList α}
    (h : NoteList.step op l = .ok l') : l.entries.Mono l'.entries := by
  cases op with
  | add n =>
    simp only [NoteList.step] at h
    split at h
    · exact Except.noConfusion h
    · rename_i p hp
      have hl := Except.ok.inj h
      rw [← hl]
      exact NoteList.add_mono (show l.add n = .ok (p.1, p.2) by rw [hp])
  | remove k => exact NoteList.list_remove_mono h
  | modify k f =>
    simp only [NoteList.step] at h
    have hl := Except.ok.inj h
    rw [← hl]
    exact NoteList.modifyNote_mono l k f
  | filter f => exact NoteList.filter_mono h

theorem NoteList.runOps_mono {α : Type} :
    ∀ (ops : List (Op α)) (l l' : NoteList α),
      NoteList.runOps ops l = .ok l' → l.entries.Mono l'.entries := by
  intro ops
  induction ops with
  | nil =>
    intro l l' h
    have hl := Except.ok.inj h
    rw [← hl]
    exact SlotMap.mono_refl _
  | cons op ops ih =>
    intro l l' h
    unfold NoteList.runOps at h
    split at h
    · exact Except.noConfusion h
    · rename_i l1 hstep
      exact SlotMap.mono_trans (NoteList.step_mono hstep) (ih l1 l' h)

theorem NoteList.getMut_of_staleP {α : Type} {l : NoteList α} {k : NoteId}
    (hs : l.entries.staleP k) : l.getMut k = none := by
  unfold NoteList.getMut
  rw [SlotMap.get_of_staleP hs]
  rfl

/-- After a successful `NoteList.remove` of a live key, the key is
stale. -/
theorem NoteList.list_remove_staleP {α : Type} {l l' : NoteList α} {k : NoteId}
    {v : α} (hg : l.getMut k = some v) (h : l.remove k = .ok l') :
    l'.entries.staleP k := by
  unfold NoteList.getMut at hg
  cases hge : l.entries.get k with
  | none => rw [hge] at hg; exact Option.noConfusion hg
  | some e =>
    have hst : ((l.entries.remove k).2).staleP k := SlotMap.remove_staleP hge
    unfold NoteList.remove at h
    split at h
    · have hl := Except.ok.inj h
      rw [← hl]
      exact hst
    · rename_i entry hent
      split at h
      · exact Except.noConfusion h
      · rename_i he hpm
        have hmid : ((l.entries.remove k).2).Mono he.2 := by
          split at hpm
          · rename_i p hp
            split at hpm
            · exact Except.noConfusion hpm
            · rename_i es hmodp
              have h2 := Except.ok.inj hpm
              rw [← h2]
              exact SlotMap.modify_mono hmodp
          · have h2 := Except.ok.inj hpm
            rw [← h2]
            exact SlotMap.mono_refl _
        have hstale2 : he.2.staleP k := SlotMap.staleP_mono hst hmid
        split at h
        · split at h
          · exact Except.noConfusion h
          · rename_i es2 hmodn
            have h2 := Except.ok.inj h
            rw [← h2]
            exact SlotMap.staleP_mono hstale2 (SlotMap.modify_mono hmodn)
        · have h2 := Except.ok.inj h
          rw [← h2]
          exact hstale2

theorem SlotMap.remove_none {α : Type} {m : SlotMap α} {k : NoteId}
    (h : (m.remove k).1 = none) : (m.remove k).2 = m := by
  unfold SlotMap.remove at h ⊢
  cases hi : m.slots[k.idx]? with
  | none => simp only [hi]
  | some s =>
    simp only [hi] at h ⊢
    by_cases hv : s.ver = k.ver
    · rw [if_pos hv] at h ⊢
      cases hval : s.val with
      | none => simp only [hval]
      | some v => rw [hval] at h; exact Option.noConfusion h
    · rw [if_neg hv]

theorem SlotMap.remove_some {α : Type} {m : SlotMap α} {k : NoteId} {e : α}
    (h : (m.remove k).1 = some e) : m.get k = some e := by
  unfold SlotMap.remove at h
  unfold SlotMap.get
  cases hi : m.slots[k.idx]? with
  | none => rw [hi] at h; exact Option.noConfusion h
  | some s =>
    simp only [hi] at h ⊢
    by_cases hv : s.ver = k.ver
    · rw [if_pos hv] at h ⊢
      cases hval : s.val with
      | none => rw [hval] at h; exact Option.noConfusion h
      | some v => rw [hval] at h; exact h
    · rw [if_neg hv] at h; exact Option.noConfusion h

/-- An `it`-preserving in-place update leaves every stored note (seen
through `get … |>.map (·.it)`) unchanged. -/
theorem SlotMap.modify_getIt {α : Type} {m m' : SlotMap (ListEntry α)}
    {j : NoteId} {f : ListEntry α → ListEntry α}
    (h : m.modify j f = some m') (hf : ∀ e, (f e).it = e.it) (k : NoteId) :
    (m'.get k).map (·.it) = (m.get k).map (·.it) := by
  rw [SlotMap.modify_get h k]
  by_cases hkj : k = j
  · rw [if_pos hkj, hkj]
    cases m.get j with
    | none => rfl
    | some e => simp [hf]
  · rw [if_neg hkj]

/-- `add` (when it succeeds) leaves every live note in place and issues
a fresh key. -/
theorem NoteList.add_getMut_preserve {α : Type} {l l' : NoteList α}
    {n v : α} {k k' : NoteId} (hinv : l.entries.invB = true)
    (hg : l.getMut k = some v) (h : l.add n = .ok (l', k')) :
    l'.getMut k = some v ∧ k' ≠ k := by
  have hspec := (NoteList.add_ok_spec h).2
  obtain ⟨hk', hrest⟩ := NoteList.addInner_spec hspec
  unfold NoteList.getMut at hg
  cases hge : l.entries.get k with
  | none => rw [hge] at hg; exact Option.noConfusion hg
  | some e =>
    rw [hge] at hg
    have hins := SlotMap.insert_get_preserve (m := l.entries) hinv hge
      ⟨n, none, l.tail⟩
    constructor
    · unfold NoteList.getMut
      rcases hrest with ⟨-, hent⟩ | ⟨t, -, hmod⟩
      · rw [hent, hins.1]; exact hg
      · have hit := SlotMap.modify_getIt hmod (fun e => rfl) k
        rw [hit, hins.1]
        exact hg
    · rw [hk']; exact hins.2

/-- Removing a different key leaves a live note in place. -/
theorem NoteList.remove_getMut_preserve {α : Type} {l l' : NoteList α}
    {j k : NoteId} {v : α} (hjk : j ≠ k) (hg : l.getMut k = some v)
    (h : l.remove j = .ok l') : l'.getMut k = some v := by
  unfold NoteList.getMut at hg
  cases hge : l.entries.get k with
  | none => rw [hge] at hg; exact Option.noConfusion hg
  | some e =>
    rw [hge] at hg
    have hbase : (((l.entries.remove j).2).get k).map (·.it) = some v := by
      cases hrj : (l.entries.remove j).1 with
      | none => rw [SlotMap.remove_none hrj, hge]; exact hg
      | some entry =>
        rw [SlotMap.remove_get_preserve hjk
          (SlotMap.get_eq_some.mpr (SlotMap.get_eq_some.mp hge))]
        exact hg
    unfold NoteList.remove at h
    split at h
    · have hl := Except.ok.inj h
      rw [← hl]
      exact hbase
    · rename_i entry hent
      split at h
      · exact Except.noConfusion h
      · rename_i he hpm
        have hmid : (he.2.get k).map (·.it) = some v := by
          split at hpm
          · rename_i p hp
            split at hpm
            · exact Except.noConfusion hpm
            · rename_i es hmodp
              have h2 := Except.ok.inj hpm
              rw [← h2]
              rw [SlotMap.modify_getIt hmodp (fun e => rfl) k]
              exact hbase
          · have h2 := Except.ok.inj hpm
            rw [← h2]
            exact hbase
        split at h
        · split at h
          · exact Except.noConfusion h
          · rename_i es2 hmodn
            have h2 := Except.ok.inj h
            rw [← h2]
            unfold NoteList.getMut
            rw [SlotMap.modify_getIt hmodn (fun e => rfl) k]
            exact hmid
        · have h2 := Except.ok.inj h
          rw [← h2]
          exact hmid

/-- `get_mut`-style mutation, observed on any key. -/
theorem NoteList.modifyNote_getMut {α : Type} (l : NoteList α)
    (j k : NoteId) (f : α → α) {v : α} (hg : l.getMut k = some v) :
    (l.modifyNote j f).getMut k = if k = j then some (f v) else some v := by
  unfold NoteList.getMut at hg
  cases hge : l.entries.get k with
  | none => rw [hge] at hg; exact Option.noConfusion hg
  | some e =>
    rw [hge] at hg
    unfold NoteList.modifyNote
    cases hm : l.entries.modify j (fun en => { en with it := f en.it }) with
    | none =>
      have hkj : ¬ k = j := by
        intro he
        subst he
        rw [SlotMap.modify_some_of_get hge (fun en => { en with it := f en.it })] at hm
        exact Option.noConfusion hm
      rw [if_neg hkj]
      unfold NoteList.getMut
      rw [hge]
      exact hg
    | some entries =>
      unfold NoteList.getMut
      rw [SlotMap.modify_get hm k]
      by_cases hkj : k = j
      · rw [if_pos hkj, if_pos hkj, ← hkj, hge]
        have hv' : e.it = v := Option.some.inj hg
        simp [hv']
      · rw [if_neg hkj, if_neg hkj, hge]
        exact hg

theorem itVal_of_slotView {α : Type} {m m' : SlotMap (ListEntry α)} {j : ℕ}
    (h : slotView m' j = slotView m j) : itVal m' j = itVal m j := by
  unfold slotView at h
  unfold itVal
  cases h1 : m'.slots[j]? with
  | none =>
    rw [h1] at h
    cases h2 : m.slots[j]? with
    | none => rfl
    | some s => rw [h2] at h; exact Option.noConfusion h
  | some s =>
    rw [h1] at h
    cases h2 : m.slots[j]? with
    | none => rw [h2] at h; exact Option.noConfusion h
    | some s2 =>
      rw [h2] at h
      have := Option.some.inj h
      exact congrArg Prod.snd this

theorem get_isSome_of_slotView {α : Type} {m m' : SlotMap (ListEntry α)}
    {k : NoteId} (h : slotView m' k.idx = slotView m k.idx) :
    (m'.get k).isSome = (m.get k).isSome := by
  unfold slotView at h
  unfold SlotMap.get
  cases h1 : m'.slots[k.idx]? with
  | none =>
    rw [h1] at h
    cases h2 : m.slots[k.idx]? with
    | none => rfl
    | some s => rw [h2] at h; exact Option.noConfusion h
  | some s =>
    rw [h1] at h
    cases h2 : m.slots[k.idx]? with
    | none => rw [h2] at h; exact Option.noConfusion h
    | some s2 =>
      rw [h2] at h
      have hpair : ((s.ver, s.val.map (·.it)) : ℕ × Option α) =
          (s2.ver, s2.val.map (·.it)) := Option.some.inj h
      have hver : s.ver = s2.ver := congrArg Prod.fst hpair
      have hval : s.val.map (·.it) = s2.val.map (·.it) := congrArg Prod.snd hpair
      show (if s.ver = k.ver then s.val else none).isSome =
        (if s2.ver = k.ver then s2.val else none).isSome
      rw [hver]
      by_cases hv : s2.ver = k.ver
      · rw [if_pos hv, if_pos hv]
        cases hv1 : s.val with
        | none =>
          rw [hv1] at hval
          cases hv2 : s2.val with
          | none => rfl
          | some e2 => rw [hv2] at hval; exact Option.noConfusion hval
        | some e1 =>
          rw [hv1] at hval
          cases hv2 : s2.val with
          | none => rw [hv2] at hval; exact Option.noConfusion hval
          | some e2 => rfl
      · rw [if_neg hv, if_neg hv]

/-- An `it`-preserving neighbour fix-up, packaged: it succeeds, keeps
every slot's version and note view, and changes only the target key's
entry. -/
theorem SlotMap.modify_pack {α : Type} {m : SlotMap (ListEntry α)}
    {q : NoteId} {qe : ListEntry α} (hq : m.get q = some qe)
    (f : ListEntry α → ListEntry α) (hf : ∀ e, (f e).it = e.it) :
    ∃ M, m.modify q f = some M ∧ M.slots.length = m.slots.length ∧
      (∀ j, M.slotVer j = m.slotVer j) ∧
      (∀ j, slotView M j = slotView m j) ∧
      (∀ k', k' ≠ q → M.get k' = m.get k') ∧
      M.get q = some (f qe) := by
  obtain ⟨s, hi, hv, hval⟩ := SlotMap.get_eq_some.mp hq
  have hlt : q.idx < m.slots.length := getElem?_some_lt hi
  have hmod := SlotMap.modify_some_of_get hq f
  refine ⟨_, hmod, by simp, ?_, ?_, ?_, ?_⟩
  · intro j
    have := SlotMap.slotVer_set m q.idx ⟨q.ver, some (f qe)⟩ m.free m.numElems m.cap j
    rw [this]
    by_cases hij : q.idx = j ∧ q.idx < m.slots.length
    · rw [if_pos hij]
      unfold SlotMap.slotVer
      rw [← hij.1, hi]
      simp [hv]
    · rw [if_neg hij]
  · intro j
    unfold slotView
    by_cases hij : q.idx = j
    · subst hij
      have h1 : (m.slots.set q.idx ⟨q.ver, some (f qe)⟩)[q.idx]? =
          some ⟨q.ver, some (f qe)⟩ := by
        rw [List.getElem?_set_self', hi]
        rfl
      rw [h1, hi]
      show some (q.ver, (some (f qe)).map (·.it)) =
        some (s.ver, s.val.map (·.it))
      rw [hv, hval]
      simp [hf]
    · rw [List.getElem?_set_ne hij]
  · intro k' hk'
    have := SlotMap.modify_get hmod k'
    rw [this, if_neg hk']
  · have := SlotMap.modify_get hmod q
    rw [this, if_pos rfl, hq]
    rfl

/-- A removal, packaged: the removed key goes stale, its slot is
vacated, and every other slot (and live key) is untouched. -/
theorem SlotMap.remove_pack {α : Type} {m : SlotMap α} {k : NoteId} {v : α}
    (hg : m.get k = some v) :
    ∃ M, m.remove k = (some v, M) ∧ M.slots.length = m.slots.length ∧
      M.staleP k ∧ (M.slots[k.idx]?).map (·.val) = some none ∧
      (∀ j, j ≠ k.idx → M.slots[j]? = m.slots[j]?) ∧
      (∀ k', k' ≠ k → M.get k' = m.get k') := by
  obtain ⟨s, hi, hv, hval, hrem⟩ := SlotMap.remove_spec hg
  have hlt : k.idx < m.slots.length := getElem?_some_lt hi
  refine ⟨_, hrem, by simp, ?_, ?_, ?_, ?_⟩
  · have hst := SlotMap.remove_staleP hg
    rw [hrem] at hst
    exact hst
  · show (((m.slots.set k.idx ⟨s.ver + 1, none⟩))[k.idx]?).map (·.val) = some none
    rw [List.getElem?_set_self', hi]
    rfl
  · intro j hj
    exact List.getElem?_set_ne (fun he => hj he.symm)
  · intro k' hk'
    by_cases hidx : k'.idx = k.idx
    · have hv' : k'.ver ≠ k.ver := by
        intro he
        apply hk'
        cases k'
        cases k
        simp only [NoteId.mk.injEq]
        exact ⟨hidx, he⟩
      have hcond : ¬ s.ver = k'.ver := fun h2 => hv' (by rw [← h2]; exact hv)
      have h1 : (m.slots.set k.idx ⟨s.ver + 1, none⟩)[k'.idx]? =
          some ⟨s.ver + 1, none⟩ := by
        rw [hidx, List.getElem?_set_self', hi]
        rfl
      show SlotMap.get ⟨m.slots.set k.idx ⟨s.ver + 1, none⟩,
          k.idx :: m.free, m.numElems - 1, m.cap⟩ k' = m.get k'
      unfold SlotMap.get
      rw [h1, hidx, hi]
      show (if s.ver + 1 = k'.ver then none else none) =
        if s.ver = k'.ver then s.val else none
      rw [ite_self, if_neg hcond]
    · show SlotMap.get ⟨m.slots.set k.idx ⟨s.ver + 1, none⟩,
          k.idx :: m.free, m.numElems - 1, m.cap⟩ k' = m.get k'
      unfold SlotMap.get
      rw [List.getElem?_set_ne (fun he => hidx he.symm)]

theorem getIt_of_slotView {α : Type} {m m' : SlotMap (ListEntry α)}
    {k : NoteId} (h : slotView m' k.idx = slotView m k.idx) :
    (m'.get k).map (·.it) = (m.get k).map (·.it) := by
  unfold slotView at h
  unfold SlotMap.get
  cases h1 : m'.slots[k.idx]? with
  | none =>
    rw [h1] at h
    cases h2 : m.slots[k.idx]? with
    | none => rfl
    | some s => rw [h2] at h; exact Option.noConfusion h
  | some s =>
    rw [h1] at h
    cases h2 : m.slots[k.idx]? with
    | none => rw [h2] at h; exact Option.noConfusion h
    | some s2 =>
      rw [h2] at h
      have hpair : ((s.ver, s.val.map (·.it)) : ℕ × Option α) =
          (s2.ver, s2.val.map (·.it)) := Option.some.inj h
      have hver : s.ver = s2.ver := congrArg Prod.fst hpair
      have hval : s.val.map (·.it) = s2.val.map (·.it) := congrArg Prod.snd hpair
      show (if s.ver = k.ver then s.val else none).map (·.it) =
        (if s2.ver = k.ver then s2.val else none).map (·.it)
      rw [hver]
      by_cases hv : s2.ver = k.ver
      · rw [if_pos hv, if_pos hv]
        exact hval
      · rw [if_neg hv, if_neg hv]

theorem itVal_of_get {α : Type} {m : SlotMap (ListEntry α)} {k : NoteId}
    {e : ListEntry α} (h : m.get k = some e) : itVal m k.idx = some e.it := by
  obtain ⟨s, hi, hv, hval⟩ := SlotMap.get_eq_some.mp h
  unfold itVal
  rw [hi]
  show s.val.map (·.it) = some e.it
  rw [hval]
  rfl

/-- `ChainB` only reads the entries of its own keys, so it transfers
along pointwise `get`-agreement on those keys. -/
theorem ChainB_congr {α : Type} {m m' : SlotMap (ListEntry α)} :
    ∀ (ks : List NoteId) (p? cur : Option NoteId),
      (∀ k ∈ ks, m'.get k = m.get k) →
      ChainB m' p? cur ks = ChainB m p? cur ks := by
  intro ks
  induction ks with
  | nil =>
    intro p? cur h
    rfl
  | cons k rest ih =>
    intro p? cur h
    unfold ChainB
    rw [h k (List.mem_cons_self k rest)]
    cases m.get k with
    | none => rfl
    | some e =>
      show (decide (cur = some k) &&
          (decide (e.prev = p?) && ChainB m' (some k) e.next rest)) =
        (decide (cur = some k) &&
          (decide (e.prev = p?) && ChainB m (some k) e.next rest))
      rw [ih (some k) e.next (fun k' hk' => h k' (List.mem_cons_of_mem k hk'))]

/-- `NoteList::remove` on a chain node whose neighbours are live and
distinct: the removal succeeds, the removed key goes permanently stale
and its slot empties, all other slots keep their note view, the
successor is re-pointed at the predecessor, and every entry that is
neither neighbour is unchanged. -/
theorem NoteList.remove_chain_spec {α : Type} {l : NoteList α} {k : NoteId}
    {e : ListEntry α} (hk : l.entries.get k = some e)
    (hp : ∀ p, e.prev = some p → (l.entries.get p).isSome ∧ p ≠ k)
    (hn : ∀ nx, e.next = some nx → (l.entries.get nx).isSome ∧ nx ≠ k ∧
      (∀ p, e.prev = some p → nx ≠ p)) :
    ∃ l', l.remove k = .ok l' ∧
      l'.entries.slots.length = l.entries.slots.length ∧
      l'.entries.staleP k ∧
      itVal l'.entries k.idx = none ∧
      (∀ j, j ≠ k.idx → slotView l'.entries j = slotView l.entries j) ∧
      (∀ nx, e.next = some nx →
        l'.entries.get nx = (l.entries.get nx).map
          (fun en => { en with prev := e.prev })) ∧
      (∀ k', k' ≠ k → (∀ p, e.prev = some p → k' ≠ p) →
        (∀ nx, e.next = some nx → k' ≠ nx) →
        l'.entries.get k' = l.entries.get k') := by
  obtain ⟨M2, hrem, hlen2, hstale2, hvac2, hslots2, hget2⟩ :=
    SlotMap.remove_pack hk
  have hitv2 : itVal M2 k.idx = none := by
    unfold itVal
    cases hI : M2.slots[k.idx]? with
    | none => rfl
    | some s0 =>
      rw [hI] at hvac2
      have hs0 : s0.val = none := Option.some.inj hvac2
      show s0.val.map (·.it) = none
      rw [hs0]
      rfl
  have hview2 : ∀ j, j ≠ k.idx → slotView M2 j = slotView l.entries j := by
    intro j hj
    unfold slotView
    rw [hslots2 j hj]
  cases hep : e.prev with
  | none =>
    cases hen : e.next with
    | none =>
      refine ⟨⟨none, none, M2⟩, ?_, hlen2, hstale2, hitv2, hview2, ?_, ?_⟩
      · show l.remove k = .ok ⟨none, none, M2⟩
        unfold NoteList.remove
        simp only [hrem, hep, hen]
      · intro nx hnx
        exact Option.noConfusion hnx
      · intro k' hk' _ _
        exact hget2 k' hk'
    | some nx =>
      obtain ⟨hnS, hnk, _⟩ := hn nx hen
      obtain ⟨ne, hne⟩ := Option.isSome_iff_exists.mp hnS
      have hne2 : M2.get nx = some ne := by
        rw [hget2 nx hnk]
        exact hne
      obtain ⟨M4, hmodn, hlen4, hver4, hview4, hgetp4, hgetq4⟩ :=
        SlotMap.modify_pack hne2 (fun en => { en with prev := none })
          (fun _ => rfl)
      refine ⟨⟨some nx, l.tail, M4⟩, ?_, hlen4.trans hlen2, ?_, ?_, ?_, ?_, ?_⟩
      · show l.remove k = .ok ⟨some nx, l.tail, M4⟩
        unfold NoteList.remove
        simp only [hrem, hep, hen, hmodn]
      · exact ⟨by rw [hlen4]; exact hstale2.1, by rw [hver4]; exact hstale2.2⟩
      · rw [itVal_of_slotView (hview4 k.idx)]
        exact hitv2
      · intro j hj
        rw [hview4 j]
        exact hview2 j hj
      · intro nx' hnx'
        obtain rfl : nx = nx' := Option.some.inj hnx'
        rw [hne]
        exact hgetq4
      · intro k' hk' _ hn'
        rw [hgetp4 k' (hn' nx rfl)]
        exact hget2 k' hk'
  | some p =>
    obtain ⟨hpS, hpk⟩ := hp p hep
    obtain ⟨pe, hpe⟩ := Option.isSome_iff_exists.mp hpS
    have hpe2 : M2.get p = some pe := by
      rw [hget2 p hpk]
      exact hpe
    cases hen : e.next with
    | none =>
      obtain ⟨M3, hmodp, hlen3, hver3, hview3, hgetp3, hgetq3⟩ :=
        SlotMap.modify_pack hpe2 (fun en => { en with next := none })
          (fun _ => rfl)
      refine ⟨⟨l.head, some p, M3⟩, ?_, hlen3.trans hlen2, ?_, ?_, ?_, ?_, ?_⟩
      · show l.remove k = .ok ⟨l.head, some p, M3⟩
        unfold NoteList.remove
        simp only [hrem, hep, hen, hmodp]
      · exact ⟨by rw [hlen3]; exact hstale2.1, by rw [hver3]; exact hstale2.2⟩
      · rw [itVal_of_slotView (hview3 k.idx)]
        exact hitv2
      · intro j hj
        rw [hview3 j]
        exact hview2 j hj
      · intro nx hnx
        exact Option.noConfusion hnx
      · intro k' hk' hp' _
        rw [hgetp3 k' (hp' p rfl)]
        exact hget2 k' hk'
    | some nx =>
      obtain ⟨hnS, hnk, hnp⟩ := hn nx hen
      obtain ⟨ne, hne⟩ := Option.isSome_iff_exists.mp hnS
      obtain ⟨M3, hmodp, hlen3, hver3, hview3, hgetp3, hgetq3⟩ :=
        SlotMap.modify_pack hpe2 (fun en => { en with next := some nx })
          (fun _ => rfl)
      have hne3 : M3.get nx = some ne := by
        rw [hgetp3 nx (hnp p hep), hget2 nx hnk]
        exact hne
      obtain ⟨M4, hmodn, hlen4, hver4, hview4, hgetp4, hgetq4⟩ :=
        SlotMap.modify_pack hne3 (fun en => { en with prev := some p })
          (fun _ => rfl)
      refine ⟨⟨l.head, l.tail, M4⟩, ?_, (hlen4.trans hlen3).trans hlen2,
        ?_, ?_, ?_, ?_, ?_⟩
      · show l.remove k = .ok ⟨l.head, l.tail, M4⟩
        unfold NoteList.remove
        simp only [hrem, hep, hen, hmodp, hmodn]
      · refine ⟨?_, ?_⟩
        · rw [hlen4, hlen3]
          exact hstale2.1
        · rw [hver4, hver3]
          exact hstale2.2
      · rw [itVal_of_slotView (hview4 k.idx), itVal_of_slotView (hview3 k.idx)]
        exact hitv2
      · intro j hj
        rw [hview4 j, hview3 j]
        exact hview2 j hj
      · intro nx' hnx'
        obtain rfl : nx = nx' := Option.some.inj hnx'
        rw [hne]
        exact hgetq4
      · intro k' hk' hp' hn'
        rw [hgetp4 k' (hn' nx rfl), hgetp3 k' (hp' p rfl)]
        exact hget2 k' hk'

/-- One unfolding step of the `filter` loop at a live cursor, given the
evaluated keep-or-remove branch. -/
theorem NoteList.filterGo_cons {α : Type} (f : α → Bool) (fu : ℕ)
    (k : NoteId) (l l2 : NoteList α) {e : ListEntry α}
    (hgk : l.entries.get k = some e)
    (hbr : (if f e.it then Except.ok l else l.remove k) = Except.ok l2) :
    NoteList.filterGo f (fu + 1) (some k) l =
      NoteList.filterGo f fu e.next l2 := by
  show (match l.entries.get k with
    | none => (Except.error Panic.invalidKey : Except Panic (NoteList α))
    | some e =>
      match (if f e.it then Except.ok l else l.remove k :
          Except Panic (NoteList α)) with
      | .error err => .error err
      | .ok l3 => NoteList.filterGo f fu e.next l3) =
    NoteList.filterGo f fu e.next l2
  rw [hgk]
  show (match (if f e.it then Except.ok l else l.remove k :
      Except Panic (NoteList α)) with
    | .error err => (Except.error err : Except Panic (NoteList α))
    | .ok l3 => NoteList.filterGo f fu e.next l3) =
    NoteList.filterGo f fu e.next l2
  rw [hbr]

/-- The effect of the `filter` loop on a well-formed chain suffix: it
never panics, leaves every slot not owned by the suffix untouched,
keeps each suffix note the predicate accepts (same slot view, hence
same version and content), and removes each suffix note the predicate
rejects, leaving the slot empty and the key permanently stale. -/
theorem NoteList.filterGo_effect {α : Type} (f : α → Bool) :
    ∀ (ks : List NoteId) (fuel : ℕ) (p? cur : Option NoteId) (l : NoteList α),
      ks.length ≤ fuel →
      ChainB l.entries p? cur ks = true →
      POccB l.entries p? = true →
      PSepB p? ks = true →
      IdxNodupB ks = true →
      ∃ l', NoteList.filterGo f fuel cur l = .ok l' ∧
        l'.entries.slots.length = l.entries.slots.length ∧
        (∀ j, j ∉ ks.map (·.idx) →
          slotView l'.entries j = slotView l.entries j) ∧
        (∀ k ∈ ks, ∀ v, itVal l.entries k.idx = some v →
          (f v = true →
            slotView l'.entries k.idx = slotView l.entries k.idx) ∧
          (f v = false →
            itVal l'.entries k.idx = none ∧ l'.entries.staleP k)) := by
  intro ks
  induction ks with
  | nil =>
    intro fuel p? cur l _ hchain _ _ _
    have hcur : cur = none := Option.isNone_iff_eq_none.mp hchain
    subst hcur
    refine ⟨l, ?_, rfl, fun j _ => rfl,
      fun k hk => absurd hk (List.not_mem_nil k)⟩
    cases fuel with
    | zero => rfl
    | succ n => rfl
  | cons k rest ih =>
    intro fuel p? cur l hfuel hchain hpocc hpsep hnodup
    have hchain' : (decide (cur = some k) &&
        (match l.entries.get k with
         | some e => decide (e.prev = p?) &&
             ChainB l.entries (some k) e.next rest
         | none => false)) = true := hchain
    rw [Bool.and_eq_true] at hchain'
    have hcur : cur = some k := of_decide_eq_true hchain'.1
    subst hcur
    have hnd : ((k :: rest).map (·.idx)).Nodup := of_decide_eq_true hnodup
    rw [List.map_cons, List.nodup_cons] at hnd
    cases hgk : l.entries.get k with
    | none =>
      rw [hgk] at hchain'
      exact absurd hchain'.2 (by simp)
    | some e =>
      rw [hgk] at hchain'
      have h2 : (decide (e.prev = p?) &&
          ChainB l.entries (some k) e.next rest) = true := hchain'.2
      rw [Bool.and_eq_true] at h2
      have hprev : e.prev = p? := of_decide_eq_true h2.1
      have hchainR : ChainB l.entries (some k) e.next rest = true := h2.2
      cases fuel with
      | zero =>
        rw [List.length_cons] at hfuel
        exact absurd hfuel (by omega)
      | succ fu =>
        have hfu : rest.length ≤ fu := by
          rw [List.length_cons] at hfuel
          omega
        cases hfe : f e.it with
        | true =>
          obtain ⟨l', hrun, hlen, hpres, hks⟩ := ih fu (some k) e.next l hfu
            hchainR
            (by show (l.entries.get k).isSome = true; rw [hgk]; rfl)
            (decide_eq_true hnd.1)
            (decide_eq_true hnd.2)
          have hbr : (if f e.it then Except.ok l else l.remove k) =
              Except.ok l := by
            rw [hfe]
            exact if_pos rfl
          refine ⟨l', ?_, hlen, ?_, ?_⟩
          · rw [NoteList.filterGo_cons f fu k l l hgk hbr]
            exact hrun
          · intro j hj
            refine hpres j (fun h => hj ?_)
            rw [List.map_cons]
            exact List.mem_cons_of_mem _ h
          · intro k' hk' v hv
            rw [List.mem_cons] at hk'
            cases hk' with
            | inl heq =>
              subst heq
              have hv' : v = e.it := by
                rw [itVal_of_get hgk] at hv
                exact (Option.some.inj hv).symm
              subst hv'
              refine ⟨fun _ => hpres k'.idx hnd.1, fun hfalse => ?_⟩
              rw [hfe] at hfalse
              exact Bool.noConfusion hfalse
            | inr hmem =>
              exact hks k' hmem v hv
        | false =>
          have hpX : ∀ p, e.prev = some p →
              (l.entries.get p).isSome ∧ p ≠ k := by
            intro p hpe
            have hq : p? = some p := hprev.symm.trans hpe
            constructor
            · have hpo : POccB l.entries (some p) = true := by
                rw [← hq]
                exact hpocc
              exact hpo
            · intro he
              have hpidx : p.idx ∉ ((k :: rest).map (·.idx)) := by
                rw [hq] at hpsep
                exact of_decide_eq_true hpsep
              exact hpidx (by
                rw [he, List.map_cons]
                exact List.mem_cons_self _ _)
          have hnX : ∀ nx, e.next = some nx →
              (l.entries.get nx).isSome ∧ nx ≠ k ∧
              (∀ p, e.prev = some p → nx ≠ p) := by
            intro nx hnx
            cases rest with
            | nil =>
              have hnone : e.next.isNone = true := hchainR
              rw [hnx] at hnone
              exact Bool.noConfusion hnone
            | cons k2 rest' =>
              have hc : (decide (e.next = some k2) &&
                  (match l.entries.get k2 with
                   | some e2 => decide (e2.prev = some k) &&
                       ChainB l.entries (some k2) e2.next rest'
                   | none => false)) = true := hchainR
              rw [Bool.and_eq_true] at hc
              have hk2 : e.next = some k2 := of_decide_eq_true hc.1
              obtain rfl : nx = k2 := by
                rw [hnx] at hk2
                exact Option.some.inj hk2
              refine ⟨?_, ?_, ?_⟩
              · cases hg2 : l.entries.get nx with
                | none =>
                  rw [hg2] at hc
                  exact absurd hc.2 (by simp)
                | some e2 => rfl
              · intro heq
                apply hnd.1
                rw [← heq, List.map_cons]
                exact List.mem_cons_self _ _
              · intro p hpe heq
                have hq : p? = some p := hprev.symm.trans hpe
                have hpidx : p.idx ∉ ((k :: nx :: rest').map (·.idx)) := by
                  rw [hq] at hpsep
                  exact of_decide_eq_true hpsep
                apply hpidx
                rw [← heq, List.map_cons, List.map_cons]
                exact List.mem_cons_of_mem _ (List.mem_cons_self _ _)
          obtain ⟨l2, hremk, hlen2, hstale2, hitv2, hview2, hgetnx2, hgetO2⟩ :=
            NoteList.remove_chain_spec hgk hpX hnX
          have hjk_of_mem : ∀ k', k' ∈ rest → k'.idx ≠ k.idx := by
            intro k' hk' he
            exact hnd.1 (he ▸ List.mem_map_of_mem _ hk')
          have hchain2 : ChainB l2.entries p? e.next rest = true := by
            cases rest with
            | nil => exact hchainR
            | cons k2 rest' =>
              have hc : (decide (e.next = some k2) &&
                  (match l.entries.get k2 with
                   | some e2 => decide (e2.prev = some k) &&
                       ChainB l.entries (some k2) e2.next rest'
                   | none => false)) = true := hchainR
              rw [Bool.and_eq_true] at hc
              have hk2 : e.next = some k2 := of_decide_eq_true hc.1
              cases hg2 : l.entries.get k2 with
              | none =>
                rw [hg2] at hc
                exact absurd hc.2 (by simp)
              | some e2 =>
                rw [hg2] at hc
                have h22 : (decide (e2.prev = some k) &&
                    ChainB l.entries (some k2) e2.next rest') = true := hc.2
                rw [Bool.and_eq_true] at h22
                have hch' : ChainB l.entries (some k2) e2.next rest' = true :=
                  h22.2
                have hnd2 : k2.idx ∉ rest'.map (·.idx) ∧
                    (rest'.map (·.idx)).Nodup := by
                  have h3 := hnd.2
                  rw [List.map_cons, List.nodup_cons] at h3
                  exact h3
                have hg2' : l2.entries.get k2 = some { e2 with prev := p? } := by
                  rw [hgetnx2 k2 hk2, hg2, hprev]
                  rfl
                have hcongr : ∀ k3 ∈ rest',
                    l2.entries.get k3 = l.entries.get k3 := by
                  intro k3 hk3
                  apply hgetO2 k3
                  · intro he
                    apply hnd.1
                    rw [← he, List.map_cons]
                    exact List.mem_cons_of_mem _ (List.mem_map_of_mem _ hk3)
                  · intro p hpe he
                    have hq : p? = some p := hprev.symm.trans hpe
                    have hpidx : p.idx ∉ ((k :: k2 :: rest').map (·.idx)) := by
                      rw [hq] at hpsep
                      exact of_decide_eq_true hpsep
                    apply hpidx
                    rw [← he, List.map_cons, List.map_cons]
                    exact List.mem_cons_of_mem _ (List.mem_cons_of_mem _
                      (List.mem_map_of_mem _ hk3))
                  · intro nx hnx he
                    obtain rfl : k2 = nx := by
                      rw [hk2] at hnx
                      exact Option.some.inj hnx
                    apply hnd2.1
                    rw [← he]
                    exact List.mem_map_of_mem _ hk3
                show (decide (e.next = some k2) &&
                  (match l2.entries.get k2 with
                   | some e2' => decide (e2'.prev = p?) &&
                       ChainB l2.entries (some k2) e2'.next rest'
                   | none => false)) = true
                rw [hk2, hg2']
                show (decide ((some k2 : Option NoteId) = some k2) &&
                  (decide ((p? : Option NoteId) = p?) &&
                    ChainB l2.entries (some k2) e2.next rest')) = true
                rw [ChainB_congr rest' (some k2) e2.next hcongr, hch']
                simp
          have hpocc2 : POccB l2.entries p? = true := by
            cases hq : p? with
            | none => rfl
            | some p =>
              have hpe : e.prev = some p := by rw [hprev, hq]
              have hpidx : p.idx ≠ k.idx := by
                intro he
                have hmem : p.idx ∉ ((k :: rest).map (·.idx)) := by
                  rw [hq] at hpsep
                  exact of_decide_eq_true hpsep
                exact hmem (by
                  rw [he, List.map_cons]
                  exact List.mem_cons_self _ _)
              show (l2.entries.get p).isSome = true
              rw [get_isSome_of_slotView (hview2 p.idx hpidx)]
              have hpo : POccB l.entries (some p) = true := by
                rw [← hq]
                exact hpocc
              exact hpo
          have hpsep2 : PSepB p? rest = true := by
            cases hq : p? with
            | none => rfl
            | some p =>
              have hpidx : p.idx ∉ ((k :: rest).map (·.idx)) := by
                rw [hq] at hpsep
                exact of_decide_eq_true hpsep
              exact decide_eq_true (fun hmem => hpidx (by
                rw [List.map_cons]
                exact List.mem_cons_of_mem _ hmem))
          obtain ⟨l', hrun, hlen, hpres, hks⟩ := ih fu p? e.next l2 hfu
            hchain2 hpocc2 hpsep2 (decide_eq_true hnd.2)
          have hbr : (if f e.it then Except.ok l else l.remove k) =
              Except.ok l2 := by
            rw [hfe, if_neg (by simp)]
            exact hremk
          refine ⟨l', ?_, hlen.trans hlen2, ?_, ?_⟩
          · rw [NoteList.filterGo_cons f fu k l l2 hgk hbr]
            exact hrun
          · intro j hj
            have hjk : j ≠ k.idx := by
              intro he
              exact hj (by
                rw [he, List.map_cons]
                exact List.mem_cons_self _ _)
            have hjrest : j ∉ rest.map (·.idx) := by
              intro h
              exact hj (by
                rw [List.map_cons]
                exact List.mem_cons_of_mem _ h)
            rw [hpres j hjrest]
            exact hview2 j hjk
          · intro k' hk' v hv
            rw [List.mem_cons] at hk'
            cases hk' with
            | inl heq =>
              subst heq
              have hv' : v = e.it := by
                rw [itVal_of_get hgk] at hv
                exact (Option.some.inj hv).symm
              subst hv'
              refine ⟨fun htrue => ?_, fun _ => ⟨?_, ?_⟩⟩
              · rw [hfe] at htrue
                exact Bool.noConfusion htrue
              · rw [itVal_of_slotView (hpres k'.idx hnd.1)]
                exact hitv2
              · exact SlotMap.staleP_mono hstale2
                  (NoteList.filterGo_mono f fu e.next l2 l' hrun)
            | inr hmem =>
              have hidx : k'.idx ≠ k.idx := hjk_of_mem k' hmem
              have hv2 : itVal l2.entries k'.idx = some v := by
                rw [itVal_of_slotView (hview2 k'.idx hidx)]
                exact hv
              obtain ⟨hkeep, hdrop⟩ := hks k' hmem v hv2
              refine ⟨fun htrue => ?_, fun hfalse => ?_⟩
              · rw [hkeep htrue]
                exact hview2 k'.idx hidx
              · exact hdrop hfalse

/-- `insert` always returns a key that reads back the inserted value:
the reused slot (or the fresh slot) carries exactly the key's
version. -/
theorem SlotMap.insert_get_self {α : Type} (m : SlotMap α) (v : α) :
    ((m.insert v).1).get (m.insert v).2 = some v := by
  cases hf : m.free with
  | nil =>
    have hins : m.insert v = (⟨m.slots ++ [⟨1, some v⟩], [],
        m.numElems + 1, m.cap⟩, ⟨m.slots.length, 1⟩) := by
      simp only [SlotMap.insert, hf]
    rw [hins]
    show SlotMap.get ⟨m.slots ++ [⟨1, some v⟩], [], m.numElems + 1, m.cap⟩
      ⟨m.slots.length, 1⟩ = some v
    unfold SlotMap.get
    have h1 : (m.slots ++ [(⟨1, some v⟩ : Slot α)])[m.slots.length]? =
        some ⟨1, some v⟩ := by
      rw [List.getElem?_append_right (le_refl _)]
      simp
    rw [h1]
    show (if 1 = 1 then some v else none) = some v
    rw [if_pos rfl]
  | cons i rest =>
    cases hi : m.slots[i]? with
    | none =>
      have hins : m.insert v = (⟨m.slots ++ [⟨1, some v⟩], rest,
          m.numElems + 1, m.cap⟩, ⟨m.slots.length, 1⟩) := by
        simp only [SlotMap.insert, hf, hi]
      rw [hins]
      show SlotMap.get ⟨m.slots ++ [⟨1, some v⟩], rest, m.numElems + 1, m.cap⟩
        ⟨m.slots.length, 1⟩ = some v
      unfold SlotMap.get
      have h1 : (m.slots ++ [(⟨1, some v⟩ : Slot α)])[m.slots.length]? =
          some ⟨1, some v⟩ := by
        rw [List.getElem?_append_right (le_refl _)]
        simp
      rw [h1]
      show (if 1 = 1 then some v else none) = some v
      rw [if_pos rfl]
    | some s =>
      have hins : m.insert v = (⟨m.slots.set i ⟨s.ver + 1, some v⟩, rest,
          m.numElems + 1, m.cap⟩, ⟨i, s.ver + 1⟩) := by
        simp only [SlotMap.insert, hf, hi]
      rw [hins]
      show SlotMap.get ⟨m.slots.set i ⟨s.ver + 1, some v⟩, rest,
        m.numElems + 1, m.cap⟩ ⟨i, s.ver + 1⟩ = some v
      unfold SlotMap.get
      have h1 : (m.slots.set i ⟨s.ver + 1, some v⟩)[i]? =
          some ⟨s.ver + 1, some v⟩ := by
        rw [List.getElem?_set_self', hi]
        rfl
      rw [h1]
      show (if s.ver + 1 = s.ver + 1 then some v else none) = some v
      rw [if_pos rfl]

/-- The key returned by `NoteList.add` reads back exactly the note that
was added (the optional tail fix-up only rewires `next`, never the
note). -/
theorem NoteList.add_getMut_self {α : Type} {l l' : NoteList α} {n : α}
    {k' : NoteId} (h : l.add n = .ok (l', k')) : l'.getMut k' = some n := by
  obtain ⟨hk', hrest⟩ := NoteList.addInner_spec (NoteList.add_ok_spec h).2
  have hfresh := SlotMap.insert_get_self l.entries ⟨n, none, l.tail⟩
  cases hrest with
  | inl hcase =>
    unfold NoteList.getMut
    rw [hcase.2, hk', hfresh]
    rfl
  | inr hcase =>
    obtain ⟨t, ht, hmod⟩ := hcase
    unfold NoteList.getMut
    rw [SlotMap.modify_get hmod k']
    by_cases hkt : k' = t
    · rw [if_pos hkt, ← hkt, hk', hfresh]
      rfl
    · rw [if_neg hkt, hk', hfresh]
      rfl

/-- Every key on a well-formed chain is live. -/
theorem ChainB_live {α : Type} {m : SlotMap (ListEntry α)} :
    ∀ (ks : List NoteId) (p? cur : Option NoteId),
      ChainB m p? cur ks = true → ∀ k ∈ ks, (m.get k).isSome = true := by
  intro ks
  induction ks with
  | nil =>
    intro p? cur _ k hk
    exact absurd hk (List.not_mem_nil k)
  | cons k0 rest ih =>
    intro p? cur hch k hk
    have hch' : (decide (cur = some k0) &&
        (match m.get k0 with
         | some e => decide (e.prev = p?) && ChainB m (some k0) e.next rest
         | none => false)) = true := hch
    rw [Bool.and_eq_true] at hch'
    rw [List.mem_cons] at hk
    cases hg : m.get k0 with
    | none =>
      rw [hg] at hch'
      exact absurd hch'.2 (by simp)
    | some e =>
      rw [hg] at hch'
      have h2 : (decide (e.prev = p?) &&
          ChainB m (some k0) e.next rest) = true := hch'.2
      rw [Bool.and_eq_true] at h2
      cases hk with
      | inl heq =>
        subst heq
        rw [hg]
        rfl
      | inr hmem => exact ih (some k0) e.next h2.2 k hmem

/-- The effect of `NoteList::filter` on a well-formed list: it never
panics, the surviving note at each slot is exactly the old note when
the predicate accepts it and gone when it rejects it, and each swept
key is permanently stale while each kept key's slot view (version and
content) is untouched. -/
theorem NoteList.filter_effect {α : Type} {l : NoteList α} {ks : List NoteId}
    (f : α → Bool) (hwf : NLWFB l ks = true) :
    ∃ l', l.filter f = .ok l' ∧
      (∀ j, itVal l'.entries j =
        match itVal l.entries j with
        | some v => if f v then some v else none
        | none => none) ∧
      (∀ k ∈ ks, ∀ v, itVal l.entries k.idx = some v →
        (f v = true →
          slotView l'.entries k.idx = slotView l.entries k.idx) ∧
        (f v = false →
          itVal l'.entries k.idx = none ∧ l'.entries.staleP k)) := by
  have hwf' : (((ChainB l.entries none l.head ks && CoversB l.entries ks) &&
      IdxNodupB ks) && decide (l.entries.numElems = ks.length)) = true := hwf
  rw [Bool.and_eq_true, Bool.and_eq_true, Bool.and_eq_true] at hwf'
  obtain ⟨⟨⟨hchain, hcov⟩, hnodup⟩, hcount⟩ := hwf'
  have hcount' : l.entries.numElems = ks.length := of_decide_eq_true hcount
  obtain ⟨l', hrun, hlen, hpres, hks⟩ := NoteList.filterGo_effect f ks
    (l.entries.numElems + 1) none l.head l (by omega) hchain rfl rfl hnodup
  refine ⟨l', hrun, ?_, hks⟩
  intro j
  by_cases hjm : j ∈ ks.map (·.idx)
  · obtain ⟨k, hkmem, hkj⟩ := List.mem_map.mp hjm
    obtain ⟨e, hge⟩ := Option.isSome_iff_exists.mp
      (ChainB_live ks none l.head hchain k hkmem)
    obtain ⟨hkeep, hdrop⟩ := hks k hkmem e.it (itVal_of_get hge)
    cases hfi : f e.it with
    | true =>
      rw [← hkj, itVal_of_slotView (hkeep hfi), itVal_of_get hge]
      show some e.it = if f e.it = true then some e.it else none
      rw [hfi, if_pos rfl]
    | false =>
      rw [← hkj, (hdrop hfi).1, itVal_of_get hge]
      show (none : Option α) = if f e.it = true then some e.it else none
      rw [hfi, if_neg (by simp)]
  · have hnone : itVal l.entries j = none := by
      unfold itVal
      cases hsj : l.entries.slots[j]? with
      | none => rfl
      | some s =>
        have hjlt : j < l.entries.slots.length := getElem?_some_lt hsj
        have hcv := List.all_eq_true.mp
          (show (List.range l.entries.slots.length).all
            (fun j => (match l.entries.slots[j]? with
              | some s => s.val.isSome
              | none => false) == ks.any (fun k => decide (k.idx = j))) =
            true from hcov)
          j (List.mem_range.mpr hjlt)
        rw [hsj] at hcv
        have hany : (ks.any (fun k => decide (k.idx = j))) = false := by
          rw [List.any_eq_false]
          intro k hk he
          exact hjm (of_decide_eq_true he ▸ List.mem_map_of_mem _ hk)
        rw [hany] at hcv
        have hcv2 : (s.val.isSome == false) = true := hcv
        have hvn : s.val.isSome = false := eq_of_beq hcv2
        show s.val.map (·.it) = none
        cases hv : s.val with
        | none => rfl
        | some x =>
          rw [hv] at hvn
          exact Bool.noConfusion hvn
    rw [itVal_of_slotView (hpres j hjm), hnone]

/-! ### C10: the frame effect of `render` -/

/-- The note loop of `render` maps each slot in place: occupancy,
versions and link fields are untouched, and the only note-field change
is `time += total`. -/
theorem renderSlots_slots {St : Type}
    (fillFn : St → List ℚ → ℚ → ℚ → ℚ → List ℚ × St)
    (adsr : AdsrEnvelope) (dt total : ℚ) :
    ∀ (slots : List (Slot (ListEntry Lib.Note))) (osc : St) (temp out : List ℚ),
      (Lib.renderSlots fillFn adsr dt total osc temp out slots).2.2.2 =
        slots.map (fun sl =>
          ⟨sl.ver, sl.val.map (fun e =>
            { e with it := { e.it with time := e.it.time + total } })⟩) := by
  intro slots
  induction slots with
  | nil => intro osc temp out; rfl
  | cons sl rest ih =>
    intro osc temp out
    cases hv : sl.val with
    | none =>
      simp only [Lib.renderSlots, hv, List.map_cons, Option.map_none]
      rw [ih]
      cases sl
      simp_all
    | some e =>
      simp only [Lib.renderSlots, hv, List.map_cons, Option.map_some]
      rw [ih]
      simp

/-- C10: `render` never inserts or removes notes and never reissues or
invalidates identities: the container's head/tail, free list, element
count and every slot's version and occupancy are exactly as before, and
each live note keeps its `freq`, `amp` and `held` fields, with `time`
advanced by exactly `len(buffer) · delta_t` (the oscillator state,
which in this snapshot lives in the `Synth`, is the only other thing
`render` updates). -/
theorem C10_render_frame {St : Type} (s : Lib.Synth St) (buffer : List ℚ) :
    (Lib.Synth.render s buffer).2.notes.head = s.notes.head ∧
      (Lib.Synth.render s buffer).2.notes.tail = s.notes.tail ∧
      (Lib.Synth.render s buffer).2.notes.entries.free = s.notes.entries.free ∧
      (Lib.Synth.render s buffer).2.notes.entries.numElems
        = s.notes.entries.numElems ∧
      (Lib.Synth.render s buffer).2.notes.entries.cap = s.notes.entries.cap ∧
      (Lib.Synth.render s buffer).2.cfg = s.cfg ∧
      (Lib.Synth.render s buffer).2.adsr = s.adsr ∧
      ∀ j : ℕ,
        (Lib.Synth.render s buffer).2.notes.entries.slots[j]? =
          (s.notes.entries.slots[j]?).map (fun sl =>
            ⟨sl.ver, sl.val.map (fun e =>
              { e with it := { e.it with time :=
                  e.it.time + (buffer.length : ℚ) * (1 / s.cfg.sample_rate) } })⟩) := by
  refine ⟨rfl, rfl, rfl, rfl, rfl, rfl, rfl, ?_⟩
  intro j
  simp only [Lib.Synth.render]
  rw [renderSlots_slots]
  exact List.getElem?_map _ _ _

/-! ### C4: what `render` accumulates -/

/-- C4 evaluated at a failing input.  Two held notes (`freq 0`, `amp 1`
each, square oscillator, pass-through envelope, `sample_rate 1`), one
`render` over a one-sample zeroed buffer.  Each note's own oscillator
contribution is one sample of value `1`, so under the claim (each
note's contribution accumulated independently) the output would be
`0 + 1 + 1 = 2`.  The code yields `3`: the scratch buffer is allocated
once per `render` call and never cleared between notes, so the second
note's pass re-adds the first note's samples on top of its own. -/
theorem C4_render_scratch_buffer_accumulates :
    (Except.map (fun s2 => (Lib.Synth.render s2 [0]).1)
        (do
          let p1 ← (Lib.Synth.new ⟨1, 1, 0⟩ Lib.SquareOscillator.fill_samples ⟨0⟩
            AdsrEnvelope.immediate 2).start_note 0 1
          let p2 ← p1.1.start_note 0 1
          pure p2.1) = .ok [3]) ∧ ((3:ℚ) ≠ 2) := by
  constructor
  · rw [show (do
        let p1 ← (Lib.Synth.new ⟨1, 1, 0⟩ Lib.SquareOscillator.fill_samples ⟨0⟩
          AdsrEnvelope.immediate 2).start_note 0 1
        let p2 ← p1.1.start_note 0 1
        pure p2.1 : Except Panic (Lib.Synth Lib.SquareOscillator)) =
      Except.ok
        { cfg := ⟨1, 1, 0⟩
          fillFn := Lib.SquareOscillator.fill_samples
          osc := ⟨0⟩
          adsr := ⟨0, 0, 1, 0⟩
          notes := ⟨some ⟨0, 1⟩, some ⟨1, 1⟩,
            ⟨[⟨1, some ⟨⟨0, 1, 0, true⟩, some ⟨1, 1⟩, none⟩⟩,
              ⟨1, some ⟨⟨0, 1, 0, true⟩, none, some ⟨0, 1⟩⟩⟩], [], 2, 2⟩⟩ }
      from rfl]
    norm_num [Except.map, Lib.Synth.render, Lib.renderSlots, Lib.mixNote,
      Lib.SquareOscillator.fill_samples, oscGo, fmod, ratTrunc,
      AdsrEnvelope.sampleLib]
  · norm_num

/-- C5: an identity issued by `add` remains valid for `get_mut` —
reading back exactly its own note — across later `add`s (under the
slotmap free-list invariant), removals of other keys, `get_mut`
mutations and sweeps that keep the note; it is retired exactly by
`remove`/sweep of the note itself, after which it is permanently stale:
`get_mut` returns `none` after any sequence of further operations, even
ones that reuse the storage slot, and never another note's data. -/
theorem C5_note_identity_stable : ∀ (α : Type),
    (∀ (l l' : NoteList α) (n : α) (k' : NoteId),
      l.add n = .ok (l', k') → l'.getMut k' = some n) ∧
    (∀ (l l' : NoteList α) (n v : α) (k k' : NoteId),
      l.entries.invB = true → l.getMut k = some v →
      l.add n = .ok (l', k') → l'.getMut k = some v ∧ k' ≠ k) ∧
    (∀ (l l' : NoteList α) (j k : NoteId) (v : α),
      j ≠ k → l.getMut k = some v → l.remove j = .ok l' →
      l'.getMut k = some v) ∧
    (∀ (l : NoteList α) (j k : NoteId) (g : α → α) (v : α),
      l.getMut k = some v →
      (l.modifyNote j g).getMut k = if k = j then some (g v) else some v) ∧
    (∀ (l l' : NoteList α) (k : NoteId) (v : α),
      l.getMut k = some v → l.remove k = .ok l' → l'.entries.staleP k) ∧
    (∀ (l l' : NoteList α) (k : NoteId) (ops : List (Op α)),
      l.entries.staleP k → NoteList.runOps ops l = .ok l' →
      l'.getMut k = none) ∧
    (∀ (l l' : NoteList α) (ks : List NoteId) (f : α → Bool)
        (k : NoteId) (v : α),
      NLWFB l ks = true → k ∈ ks → l.getMut k = some v →
      l.filter f = .ok l' →
      (f v = true → l'.getMut k = some v) ∧
      (f v = false → l'.entries.staleP k)) := by
  intro α
  refine ⟨?_, ?_, ?_, ?_, ?_, ?_, ?_⟩
  · intro l l' n k' h
    exact NoteList.add_getMut_self h
  · intro l l' n v k k' hinv hg h
    exact NoteList.add_getMut_preserve hinv hg h
  · intro l l' j k v hjk hg h
    exact NoteList.remove_getMut_preserve hjk hg h
  · intro l j k g v hg
    exact NoteList.modifyNote_getMut l j k g hg
  · intro l l' k v hg h
    exact NoteList.list_remove_staleP hg h
  · intro l l' k ops hstale hrun
    exact NoteList.getMut_of_staleP
      (SlotMap.staleP_mono hstale (NoteList.runOps_mono ops l l' hrun))
  · intro l l' ks f k v hwf hkmem hg hrun
    have hg' : (l.entries.get k).map (·.it) = some v := hg
    cases hge : l.entries.get k with
    | none =>
      rw [hge] at hg'
      exact Option.noConfusion hg'
    | some e =>
      rw [hge] at hg'
      have hev : e.it = v := Option.some.inj hg'
      obtain ⟨l2, hfilter2, _, hks⟩ := NoteList.filter_effect f hwf
      rw [hfilter2] at hrun
      obtain rfl : l2 = l' := Except.ok.inj hrun
      have hiv : itVal l.entries k.idx = some v := by
        rw [itVal_of_get hge, hev]
      obtain ⟨hkeep, hdrop⟩ := hks k hkmem v hiv
      refine ⟨fun htrue => ?_, fun hfalse => (hdrop hfalse).2⟩
      show (l2.entries.get k).map (·.it) = some v
      rw [getIt_of_slotView (hkeep htrue), hge]
      show some e.it = some v
      rw [hev]

theorem C5_witness :
    (C5listA.getMut ⟨2, 1⟩ = some 30) ∧
    (C5listA.getMut ⟨0, 1⟩ = some 10 ∧ (⟨2, 1⟩ : NoteId) ≠ ⟨0, 1⟩) ∧
    (C5rem.getMut ⟨1, 1⟩ = some 20) ∧
    ((C5list.modifyNote ⟨1, 1⟩ (fun n => n + 1)).getMut ⟨1, 1⟩ =
      if (⟨1, 1⟩ : NoteId) = ⟨1, 1⟩ then some 21 else some 20) ∧
    (C5rem.entries.staleP ⟨0, 1⟩) ∧
    (C5run.getMut ⟨0, 1⟩ = none) ∧
    ((C5filt.getMut ⟨0, 1⟩ = some 10) ∧ C5filt.entries.staleP ⟨1, 1⟩) :=
  ⟨(C5_note_identity_stable ℕ).1 C5list C5listA 30 ⟨2, 1⟩ (by decide),
   (C5_note_identity_stable ℕ).2.1 C5list C5listA 30 10 ⟨0, 1⟩ ⟨2, 1⟩
     (by decide) (by decide) (by decide),
   (C5_note_identity_stable ℕ).2.2.1 C5list C5rem ⟨0, 1⟩ ⟨1, 1⟩ 20
     (by decide) (by decide) (by decide),
   (C5_note_identity_stable ℕ).2.2.2.1 C5list ⟨1, 1⟩ ⟨1, 1⟩
     (fun n => n + 1) 20 (by decide),
   (C5_note_identity_stable ℕ).2.2.2.2.1 C5list C5rem ⟨0, 1⟩ 10
     (by decide) (by decide),
   (C5_note_identity_stable ℕ).2.2.2.2.2.1 C5rem C5run ⟨0, 1⟩ [Op.add 40]
     ⟨by decide, by decide⟩ (by decide),
   ⟨((C5_note_identity_stable ℕ).2.2.2.2.2.2 C5list C5filt C5ks
       (fun n => decide (n < 15)) ⟨0, 1⟩ 10 (by decide) (by decide)
       (by decide) (by decide)).1 (by decide),
    ((C5_note_identity_stable ℕ).2.2.2.2.2.2 C5list C5filt C5ks
       (fun n => decide (n < 15)) ⟨1, 1⟩ 20 (by decide) (by decide)
       (by decide) (by decide)).2 (by decide)⟩⟩

/-- C6: `note_ended` is false on every `Holding` state and true on
`Released t` exactly when `t ≥ release`; and on a well-formed note
list, `bookkeeping` (which keeps a note exactly when
`held || time < release`, i.e. exactly when `note_ended` is false on
its current held/released state) never panics, removes precisely the
notes whose `note_ended` holds, and leaves every other note in its
slot unchanged. -/
theorem C6_bookkeeping_removes_exactly_ended_notes :
    (∀ (e : AdsrEnvelope) (t : ℚ), e.note_ended (.Holding t) = false) ∧
    (∀ (e : AdsrEnvelope) (t : ℚ),
      e.note_ended (.Released t) = decide (e.release ≤ t)) ∧
    (∀ (St : Type) (s : Lib.Synth St) (ks : List NoteId),
      NLWFB s.notes ks = true →
      ∃ s', s.bookkeeping = .ok s' ∧ s'.cfg = s.cfg ∧ s'.fillFn = s.fillFn ∧
        s'.osc = s.osc ∧ s'.adsr = s.adsr ∧
        ∀ j, itVal s'.notes.entries j =
          match itVal s.notes.entries j with
          | some n =>
            if s.adsr.note_ended
                (if n.held then NoteState.Holding n.time
                 else NoteState.Released n.time) then none
            else some n
          | none => none) := by
  refine ⟨fun e t => rfl, fun e t => rfl, ?_⟩
  intro St s ks hwf
  obtain ⟨l', hfilter, hitv, _⟩ :=
    NoteList.filter_effect
      (fun n => n.held || decide (n.time < s.adsr.release)) hwf
  refine ⟨{ s with notes := l' }, ?_, rfl, rfl, rfl, rfl, ?_⟩
  · unfold Lib.Synth.bookkeeping
    rw [hfilter]
    rfl
  · have hkeep : ∀ n : Lib.Note,
        (if s.adsr.note_ended (if n.held then NoteState.Holding n.time
            else NoteState.Released n.time) then (none : Option Lib.Note)
          else some n) =
        (if n.held || decide (n.time < s.adsr.release) then some n
          else none) := by
      intro n
      cases hh : n.held with
      | true => rfl
      | false =>
        show (if decide (s.adsr.release ≤ n.time) = true
            then (none : Option Lib.Note) else some n) =
          (if decide (n.time < s.adsr.release) = true then some n else none)
        simp only [decide_eq_true_eq]
        by_cases hc : s.adsr.release ≤ n.time
        · rw [if_pos hc, if_neg (not_lt.mpr hc)]
        · rw [if_neg hc, if_pos (not_le.mp hc)]
    intro j
    rw [hitv j]
    cases hx : itVal s.notes.entries j with
    | none => rfl
    | some n => exact (hkeep n).symm

theorem C6_witness :
    NLWFB C6synth.notes C6ks = true ∧
    (∃ s', C6synth.bookkeeping = .ok s' ∧ s'.cfg = C6synth.cfg ∧
      s'.fillFn = C6synth.fillFn ∧ s'.osc = C6synth.osc ∧
      s'.adsr = C6synth.adsr ∧
      ∀ j, itVal s'.notes.entries j =
        match itVal C6synth.notes.entries j with
        | some n =>
          if C6synth.adsr.note_ended
              (if n.held then NoteState.Holding n.time
               else NoteState.Released n.time) then none
          else some n
        | none => none) :=
  ⟨by decide,
   C6_bookkeeping_removes_exactly_ended_notes.2.2 Unit C6synth C6ks
     (by decide)⟩

end Happy
